import Mathlib

/-!
Verification development for the gqlgenc GraphQL client-code generator.

The definitions below are a shallow embedding of the generator's core:

* `Codegen` embeds `codegen.GoTypeGenerator` (the selection-set type
  synthesizer): GraphQL type references, selections, Go type expressions,
  the shape builder `newField`/`newFields`, the wrapping resolver
  `wrapWithListAndNullability`, the name mangler `fieldTypeName`, the
  duplicate collapse `uniqueByName`, and the catalog enumeration `goTypes`.
* `Querygen` embeds the `querygen` plugin's unmarshal planner: the
  statement IR, `FieldDecoder`, `InlineFragmentDecoder` and
  `UnmarshalBuilder.BuildUnmarshalMethod`.
* `Runtime` gives a small-step execution model for the generated
  statements (modelled from the spec, since the generated Go code itself
  is not part of the repository's sources).

Go `map[string]T` values are embedded as association lists with
replace-on-insert (`insertReplaceAssoc`); map iteration order is
nondeterministic in Go, so theorems that depend on enumeration order
quantify over permutations of the association list's values.
Go machine strings are embedded as Lean `String`; `fmt.Sprintf` quoting
(`%q`) is embedded as plain double-quoting, exact for the quote-free
GraphQL names that reach it.
-/

namespace Codegen

/-- Embeds `graphql.Type` (vektah/gqlparser `ast.Type`). The Go struct
carries `NamedType string`, `Elem *Type`, `NonNull bool` with the parser
invariant that exactly one of named / list-of is present at each level;
the embedding carries that invariant in the constructors. -/
inductive GqlTypeRef where
  | named (name : String) (nonNull : Bool)
  | listOf (elem : GqlTypeRef) (nonNull : Bool)
deriving DecidableEq, Repr

/-- Embeds the `go/types` type expressions the generator builds: basic
(binder-resolved) types, named types with a package qualifier and an
underlying type, pointers, slices, and struct types (parallel lists of
variables `(name, type, embedded)` and tags, as in
`gotypes.NewStruct(vars, tags)`). -/
inductive GoType where
  | basic (name : String)
  | named (pkg : String) (name : String) (underlying : GoType)
  | pointer (elem : GoType)
  | slice (elem : GoType)
  | strct (vars : List (String × GoType × Bool)) (tags : List String)

/-- Whether a Go type expression is a pointer type (`*types.Pointer`). -/
def GoType.isPtr : GoType → Bool
  | .pointer _ => true
  | _ => false

mutual

/-- Embeds `gotypes.Type.String()` for the type expressions we build: a
named type prints as its package-qualified name, pointers prefix `*`,
slices prefix `[]`, structs print their fields. Only named and
pointer-to-named types are ever registered in the catalog, so only those
two renderings feed the claims. -/
def GoType.toString : GoType → String
  | .basic n => n
  | .named pkg n _ => if pkg = "" then n else pkg ++ "." ++ n
  | .pointer e => "*" ++ GoType.toString e
  | .slice e => "[]" ++ GoType.toString e
  | .strct vars tags => "struct\x7b" ++ GoType.renderVars vars tags ++ "\x7d"

/-- Renders struct fields for `GoType.toString`: `name type "tag"`
separated by `; `, embedded fields without the name. -/
def GoType.renderVars : List (String × GoType × Bool) → List String → String
  | [], _ => ""
  | (n, t, emb) :: rest, tags =>
      let tagStr := match tags.head? with
        | none => ""
        | some tg => if tg = "" then "" else " \"" ++ tg ++ "\""
      let fld := (if emb then GoType.toString t else n ++ " " ++ GoType.toString t) ++ tagStr
      match rest with
      | [] => fld
      | _ => fld ++ "; " ++ GoType.renderVars rest tags.tail

end

/-- Association-list embedding of assignment into a Go map: replaces the
value at an existing key in place, appends a new key at the end. -/
def insertReplaceAssoc {β : Type} : List (String × β) → String → β → List (String × β)
  | [], k, v => [(k, v)]
  | (k0, v0) :: rest, k, v =>
      if k0 = k then (k, v) :: rest else (k0, v0) :: insertReplaceAssoc rest k v

/-- The generator's catalog `g.types : map[string]gotypes.Type`. -/
abbrev TypesMap := List (String × GoType)

/-- Embeds the generator configuration consumed by `GoTypeGenerator`:
`exportQueryType`, the `omitempty`/`omitzero` tag flags (Go `*bool`,
hence `Option Bool`), the query package path, the external binder
(`binder.FindTypeFromName` composed with the models lookup, an external
collaborator modelled as a total function), and gqlgen's external
`templates.ToGo` exported-identifier conversion. -/
structure GenConfig where
  exportQueryType : Bool
  omitempty : Option Bool
  omitzero : Option Bool
  pkg : String
  binder : String → GoType
  toGo : String → String

/-- Embeds `TypeKind` from the codegen package. -/
inductive TypeKind where
  | scalar
  | object
  | fragmentSpread
  | inlineFragment
deriving DecidableEq, BEq, Repr

/-- Embeds `codegen.Field` (`Name`, `Type`, `Tags`, `TypeKind`); the Go
field `Type` is spelled `typ` because `Type` is a Lean keyword. -/
structure Field where
  name : String
  typ : GoType
  tags : List String
  typeKind : TypeKind

/-- Embeds `firstUpper`: re-cases the first rune to upper case; returns
the empty string unchanged. `Char.toUpper` stands in for
`unicode.ToUpper` (they agree on the ASCII identifiers that occur). -/
def firstUpper (s : String) : String :=
  match s.data with
  | [] => s
  | c :: cs => String.mk (c.toUpper :: cs)

/-- Embeds `firstLower`: re-cases the first rune to lower case; returns
the empty string unchanged. -/
def firstLower (s : String) : String :=
  match s.data with
  | [] => s
  | c :: cs => String.mk (c.toLower :: cs)

/-- Embeds `fieldTypeName` (the Name Mangler): `P_A` where `A` is
`templates.ToGo(fieldName)` (passed in as `toGo`, an external gqlgen
function) and `P` is the parent scope with its first rune re-cased
according to `exportQueryType`. -/
def fieldTypeName (toGo : String → String) (parentTypeName fieldName : String)
    (exportQueryType : Bool) : String :=
  if exportQueryType then
    firstUpper parentTypeName ++ "_" ++ toGo fieldName
  else
    firstLower parentTypeName ++ "_" ++ toGo fieldName

/-- Embeds `Field.joinTags`: tags joined by a single space. -/
def Field.joinTags (f : Field) : String :=
  String.intercalate " " f.tags

/-- Embeds `Field.goVar`: the struct variable `(ToGo(Name), Type,
embedded)` where only fragment-spread fields are embedded. -/
def Field.goVar (toGo : String → String) (f : Field) : String × GoType × Bool :=
  (toGo f.name, f.typ, f.typeKind = TypeKind.fragmentSpread)

/-- Embeds `Fields.uniqueByName`: build `map[string]*Field` keyed by
`Name` (last write wins), then sort the values with
`strings.Compare(a.Name, b.Name)`. Go's map iteration order is
nondeterministic and `slices.SortedFunc` is an unstable sort, but the
map is keyed by `Name`, so the keys are distinct and every sort of any
enumeration gives the same list; insertion sort on the insertion-ordered
values realizes it. -/
def uniqueByName (fs : List Field) : List Field :=
  let fieldMapByName := fs.foldl (fun m f => insertReplaceAssoc m f.name f) []
  (fieldMapByName.map Prod.snd).insertionSort (fun a b => a.name ≤ b.name)

/-- Embeds `Fields.goStructType`: collapse duplicates by name, then
build the struct from the per-field variables and joined tags. -/
def goStructType (toGo : String → String) (fs : List Field) : GoType :=
  let fields := uniqueByName fs
  GoType.strct (fields.map (Field.goVar toGo)) (fields.map Field.joinTags)

/-- Embeds `newGoNamedType`: build the named type in the query package,
wrap it in a pointer when `nonnull` is false, and record it in the
catalog under its rendered `String()`. Returns the (possibly pointered)
type together with the updated catalog. -/
def newGoNamedType (g : GenConfig) (typeName : String) (nonnull : Bool) (t : GoType)
    (st : TypesMap) : GoType × TypesMap :=
  let namedType := GoType.named g.pkg typeName t
  let namedType := if !nonnull then GoType.pointer namedType else namedType
  (namedType, insertReplaceAssoc st namedType.toString namedType)

/-- Embeds `findGoType`: resolve a leaf GraphQL type through the external
binder and add a pointer when the reference is nullable. -/
def findGoType (g : GenConfig) (typeName : String) (nonNull : Bool) : GoType :=
  let goType := g.binder typeName
  if !nonNull then GoType.pointer goType else goType

/-- Embeds `buildGoTypeHelper` (the `inList` parameter is dead in the
source — always `false` — and is kept for fidelity). The Go panic branch
for a reference with neither named nor element form is unrepresentable
here because `GqlTypeRef` carries the parser invariant. -/
def buildGoTypeHelper (g : GenConfig) : GqlTypeRef → Bool → GoType
  | .named n nonNull, _ => findGoType g n nonNull
  | .listOf e nonNull, _ =>
      let elemType := buildGoTypeHelper g e false
      let sliceType := GoType.slice elemType
      if !nonNull then GoType.pointer sliceType else sliceType

/-- Embeds `buildGoType`. -/
def buildGoType (g : GenConfig) (t : GqlTypeRef) : GoType :=
  buildGoTypeHelper g t false

/-- Embeds `wrapWithListAndNullability`: a named reference returns the
base type, pointered when nullable; a list reference first pointers the
base type, recursively wraps the element, makes a slice, and pointers
the slice when the list itself is nullable. The Go fall-through `return
baseType` for a malformed reference is unrepresentable here. -/
def wrapWithListAndNullability (g : GenConfig) (baseType : GoType) : GqlTypeRef → GoType
  | .named _ nonNull =>
      if !nonNull then GoType.pointer baseType else baseType
  | .listOf e nonNull =>
      let elemBaseType := GoType.pointer baseType
      let wrappedElem := wrapWithListAndNullability g elemBaseType e
      let sliceType := GoType.slice wrappedElem
      if !nonNull then GoType.pointer sliceType else sliceType

/-- The top-level non-null flag of a reference (`field.Definition.Type.NonNull`). -/
def GqlTypeRef.topNonNull : GqlTypeRef → Bool
  | .named _ nn => nn
  | .listOf _ nn => nn

/-- Embeds `jsonOmitTag`: for a non-null field type, append `,omitempty`
and/or `,omitzero` according to the configuration's `*bool` flags. -/
def jsonOmitTag (g : GenConfig) (defType : GqlTypeRef) : String :=
  if defType.topNonNull then
    (if g.omitempty = some true then ",omitempty" else "")
      ++ (if g.omitzero = some true then ",omitzero" else "")
  else ""

/-- Embeds `graphql.Selection` restricted to the attributes the
generator reads: a field selection's alias, resolved definition type and
child selection set; a fragment spread's name and (resolved) definition
selection set; an inline fragment's type condition and selection set. -/
inductive Selection where
  | field (aliasName : String) (defType : GqlTypeRef) (selectionSet : List Selection)
  | fragmentSpread (name : String) (defSelectionSet : List Selection)
  | inlineFragment (typeCondition : String) (selectionSet : List Selection)

mutual

/-- Embeds `GoTypeGenerator.newFields`: one field per selection, in
order, threading the catalog state. -/
def newFields (g : GenConfig) (parentTypeName : String) :
    List Selection → TypesMap → List Field × TypesMap
  | [], st => ([], st)
  | sel :: rest, st =>
      let (f, st1) := newField g parentTypeName sel st
      let (fs, st2) := newFields g parentTypeName rest st1
      (f :: fs, st2)

/-- Embeds `GoTypeGenerator.newField`. -/
def newField (g : GenConfig) (parentTypeName : String) :
    Selection → TypesMap → Field × TypesMap
  | .field aliasName defType selectionSet, st =>
      let (tk, st1) := newTypeKindAndGoType g parentTypeName aliasName defType selectionSet st
      let tags := ["json:\"" ++ aliasName ++ jsonOmitTag g defType ++ "\""]
      (⟨aliasName, tk.2, tags, tk.1⟩, st1)
  | .fragmentSpread nm defSelectionSet, st =>
      let (fs, st1) := newFields g nm defSelectionSet st
      let structType := goStructType g.toGo fs
      let (namedType, st2) := newGoNamedType g nm true structType st1
      (⟨nm, namedType, ["json:\"-\""], TypeKind.fragmentSpread⟩, st2)
  | .inlineFragment typeCondition selectionSet, st =>
      let (fs, st1) := newFields g "" selectionSet st
      let structType := goStructType g.toGo fs
      (⟨typeCondition, structType, ["json:\"-\""], TypeKind.inlineFragment⟩, st1)

/-- Embeds `GoTypeGenerator.newTypeKindAndGoType`. -/
def newTypeKindAndGoType (g : GenConfig) (parentTypeName aliasName : String)
    (defType : GqlTypeRef) (selectionSet : List Selection) (st : TypesMap) :
    (TypeKind × GoType) × TypesMap :=
  let typeName := fieldTypeName g.toGo parentTypeName aliasName g.exportQueryType
  let (fields, st1) := newFields g typeName selectionSet st
  if fields.length = 0 then
    ((TypeKind.scalar, buildGoType g defType), st1)
  else
    let structType := goStructType g.toGo fields
    let (namedType, st2) := newGoNamedType g typeName true structType st1
    ((TypeKind.object, wrapWithListAndNullability g namedType defType), st2)

end

/-- An operation as the synthesizer consumes it: a name and a selection set. -/
structure Operation where
  name : String
  selectionSet : List Selection

/-- Embeds one iteration of the loop in `CreateGoTypes`: build the
operation's fields under its name as parent scope, then register the
top-level named type under the operation's name with `nonnull = false`. -/
def createStep (g : GenConfig) (st : TypesMap) (op : Operation) : TypesMap :=
  let (fs, st1) := newFields g op.name op.selectionSet st
  (newGoNamedType g op.name false (goStructType g.toGo fs) st1).2

/-- The catalog state after `CreateGoTypes` has processed every operation. -/
def createGoTypesState (g : GenConfig) (ops : List Operation) (st : TypesMap) : TypesMap :=
  ops.foldl (createStep g) st

/-- Embeds `strings.TrimPrefix(s, "*")`: drops one leading `*`. -/
def stripStar (s : String) : String :=
  match s.data with
  | '*' :: rest => String.mk rest
  | _ => s

/-- Embeds `goTypes`'s sort: `slices.SortedFunc` over the map's values
with `strings.Compare` on the star-stripped renderings. Go map iteration
order is nondeterministic, so the values are taken as an explicit list
and claims about order-independence quantify over its permutations;
insertion sort models the (unstable) Go sort — any two models agree
exactly when no two values share a sort key. -/
def goTypesFrom (vals : List GoType) : List GoType :=
  vals.insertionSort (fun a b => stripStar a.toString ≤ stripStar b.toString)

/-- Embeds `CreateGoTypes` with the catalog's values enumerated in
association-list (insertion) order; `goTypesFrom` applied to any
permutation models other map iteration orders. -/
def CreateGoTypes (g : GenConfig) (ops : List Operation) : List GoType :=
  goTypesFrom ((createGoTypesState g ops []).map Prod.snd)

end Codegen

namespace Querygen

/-- Embeds the `querygen` statement IR (`statement.go`). A Go
`SwitchCase` struct (`Value`, `Body`) is embedded as the pair
`String × List Statement`. -/
inductive Statement where
  | variableDecl (name typ : String)
  | ifStmt (condition : String) (body : List Statement)
  | switchStmt (expr : String) (cases : List (String × List Statement))
  | assignment (target value : String)
  | returnStmt (value : String)
  | rawStmt (code : String)
  | errorCheck (errorExpr : String) (body : List Statement)

/-- Embeds `querygen.FieldInfo` restricted to the attributes the
unmarshal planner reads (the `go/types` handles `Type`/`TypeName` are
omitted). `SubFields` makes the type recursive, so it is an inductive
with one constructor rather than a structure. -/
inductive FieldInfo where
  | mk (Name JSONTag : String) (IsExported IsEmbedded IsInlineFragment IsPointer : Bool)
      (PointerElemType : String) (SubFields : List FieldInfo)

/-- Field accessor: `Name`. -/
def FieldInfo.Name : FieldInfo → String
  | .mk n _ _ _ _ _ _ _ => n

/-- Field accessor: `JSONTag`. -/
def FieldInfo.JSONTag : FieldInfo → String
  | .mk _ t _ _ _ _ _ _ => t

/-- Field accessor: `IsExported`. -/
def FieldInfo.IsExported : FieldInfo → Bool
  | .mk _ _ e _ _ _ _ _ => e

/-- Field accessor: `IsEmbedded`. -/
def FieldInfo.IsEmbedded : FieldInfo → Bool
  | .mk _ _ _ e _ _ _ _ => e

/-- Field accessor: `IsInlineFragment`. -/
def FieldInfo.IsInlineFragment : FieldInfo → Bool
  | .mk _ _ _ _ i _ _ _ => i

/-- Field accessor: `IsPointer`. -/
def FieldInfo.IsPointer : FieldInfo → Bool
  | .mk _ _ _ _ _ p _ _ => p

/-- Field accessor: `PointerElemType`. -/
def FieldInfo.PointerElemType : FieldInfo → String
  | .mk _ _ _ _ _ _ p _ => p

/-- Field accessor: `SubFields`. -/
def FieldInfo.SubFields : FieldInfo → List FieldInfo
  | .mk _ _ _ _ _ _ _ s => s

/-- Embeds `querygen.InlineFragmentInfo`. -/
structure InlineFragmentInfo where
  Field : FieldInfo
  FieldExpr : String
  ElemTypeStr : String

/-- Embeds `querygen.TypeInfo` restricted to what the planner reads. -/
structure TypeInfo where
  TypeName : String
  Fields : List FieldInfo

/-- Embeds `FieldDecoder.DecodeField`: a presence-guarded decode of one
regular field; `%q` on the JSON name is embedded as plain quoting. -/
def DecodeField (targetExpr rawExpr : String) (field : FieldInfo) : Statement :=
  let fieldTarget := "&" ++ targetExpr ++ "." ++ field.Name
  let jsonName := field.JSONTag
  Statement.ifStmt ("value, ok := " ++ rawExpr ++ "[\"" ++ jsonName ++ "\"]; ok")
    [Statement.errorCheck ("json.Unmarshal(value, " ++ fieldTarget ++ ")")
      [Statement.returnStmt "err"]]

/-- Embeds `FieldDecoder.DecodeFields`: skip fields whose JSON tag is
empty or `-` and unexported fields; emit one `DecodeField` per
remaining field, in order. -/
def DecodeFields (targetExpr rawExpr : String) : List FieldInfo → List Statement
  | [] => []
  | field :: rest =>
      if field.JSONTag = "" ∨ field.JSONTag = "-" then
        DecodeFields targetExpr rawExpr rest
      else if !field.IsExported then
        DecodeFields targetExpr rawExpr rest
      else
        DecodeField targetExpr rawExpr field :: DecodeFields targetExpr rawExpr rest

/-- Embeds `strings.ReplaceAll(s, ".", "_")` as used for the type-name
local variable. -/
def replaceDots (s : String) : String :=
  String.mk (s.data.map (fun c => if c = '.' then '_' else c))

/-- The unique type-name local for a target path:
`fmt.Sprintf("typeName_%s", strings.ReplaceAll(targetExpr, ".", "_"))`. -/
def typeNameVarOf (targetExpr : String) : String :=
  "typeName_" ++ replaceDots targetExpr

/-- Embeds `InlineFragmentDecoder.createSwitchCases`: one case per
fragment, labelled by the field name (the type condition), whose body
initializes the pointer field and unmarshals the original input bytes
into it with an error check. -/
def createSwitchCases (fragments : List InlineFragmentInfo) : List (String × List Statement) :=
  fragments.map (fun frag =>
    (frag.Field.Name,
      [Statement.assignment frag.FieldExpr ("&" ++ frag.ElemTypeStr ++ "\x7b\x7d"),
       Statement.errorCheck ("json.Unmarshal(data, " ++ frag.FieldExpr ++ ")")
         [Statement.returnStmt "err"]]))

/-- Embeds `InlineFragmentDecoder.DecodeInlineFragments` (the same logic
appears in `part_011` and in `decoder/inline_decoder.go`): nil for an
empty fragment list; otherwise declare the type-name local, extract
`__typename` from the raw map with a bare (not error-checked)
`json.Unmarshal`, and switch on the local. -/
def DecodeInlineFragments (targetExpr rawExpr : String)
    (fragments : List InlineFragmentInfo) : List Statement :=
  if fragments.isEmpty then [] else
  let typeNameVar := typeNameVarOf targetExpr
  [Statement.variableDecl typeNameVar "string",
   Statement.ifStmt ("typename, ok := " ++ rawExpr ++ "[\"__typename\"]; ok")
     [Statement.rawStmt ("json.Unmarshal(typename, &" ++ typeNameVar ++ ")")],
   Statement.switchStmt typeNameVar (createSwitchCases fragments)]

/-- Embeds `UnmarshalBuilder.categorizeFieldsListWithPath`: split a
field list into regular fields, fragment spreads and inline fragments,
preserving order; inline fragments get `parentPath.Name` as their field
expression and their pointer element type as the case's allocation
type. -/
def categorizeFieldsListWithPath :
    List FieldInfo → String → List FieldInfo × List FieldInfo × List InlineFragmentInfo
  | [], _ => ([], [], [])
  | field :: rest, parentPath =>
      let cats := categorizeFieldsListWithPath rest parentPath
      if field.IsInlineFragment then
        (cats.1, cats.2.1,
          ⟨field, parentPath ++ "." ++ field.Name, field.PointerElemType⟩ :: cats.2.2)
      else if field.IsEmbedded ∧ (field.JSONTag = "" ∨ field.JSONTag = "-") then
        (cats.1, field :: cats.2.1, cats.2.2)
      else
        (field :: cats.1, cats.2.1, cats.2.2)

/-- Embeds `categorizeFieldsList` (parent path `t`). -/
def categorizeFieldsList (fields : List FieldInfo) :
    List FieldInfo × List FieldInfo × List InlineFragmentInfo :=
  categorizeFieldsListWithPath fields "t"

/-- Embeds `UnmarshalBuilder.buildFragmentUnmarshalStatement`: decode the
original input bytes (`data`, not the raw map) into the embedded field. -/
def buildFragmentUnmarshalStatement (field : FieldInfo) : Statement :=
  Statement.errorCheck ("json.Unmarshal(data, &t." ++ field.Name ++ ")")
    [Statement.returnStmt "err"]

/-- The `SubFields` component of a field is structurally smaller than
the field itself (used for termination of the nested planner). -/
theorem sizeOf_SubFields_lt (f : FieldInfo) : sizeOf f.SubFields < sizeOf f := by
  cases f with
  | mk n t e1 e2 e3 e4 p s => simp [FieldInfo.SubFields]

/-- Every list of fields has positive size (termination helper). -/
theorem one_le_sizeOf_fieldList (l : List FieldInfo) : 1 ≤ sizeOf l := by
  cases l <;> simp_arith

/-- The fragment-spread component of a categorized field list is no
larger than the list itself (termination helper). -/
theorem sizeOf_categorize_spreads (l : List FieldInfo) (p : String) :
    sizeOf (categorizeFieldsListWithPath l p).2.1 ≤ sizeOf l := by
  induction l with
  | nil => simp [categorizeFieldsListWithPath]
  | cons f rest ih =>
      simp only [categorizeFieldsListWithPath]
      split
      · simp; omega
      · split
        · simp; omega
        · simp; omega

mutual

/-- Embeds `UnmarshalBuilder.decodeNestedFields`: categorize the
fragment-spread field's `SubFields` under the embedded path `t.Name`,
recursively plan the nested fragment spreads, then plan the nested
inline fragments with the embedded path as target and the *outer*
`raw` map as the `__typename` source. -/
def decodeNestedFields (parentField : FieldInfo) : List Statement :=
  let embeddedTargetExpr := "t." ++ parentField.Name
  let cats := categorizeFieldsListWithPath parentField.SubFields embeddedTargetExpr
  decodeFragmentSpreads cats.2.1
    ++ DecodeInlineFragments embeddedTargetExpr "raw" cats.2.2
termination_by sizeOf parentField
decreasing_by
  have h1 := sizeOf_categorize_spreads parentField.SubFields ("t." ++ parentField.Name)
  have h2 := sizeOf_SubFields_lt parentField
  omega

/-- Embeds `UnmarshalBuilder.decodeSingleFragmentSpread`: the fragment's
own unmarshal statement, then the nested plan when it has sub-fields. -/
def decodeSingleFragmentSpread (field : FieldInfo) : List Statement :=
  buildFragmentUnmarshalStatement field ::
    (if 0 < field.SubFields.length then decodeNestedFields field else [])
termination_by sizeOf field + 1
decreasing_by omega

/-- Embeds `UnmarshalBuilder.decodeFragmentSpreads`. -/
def decodeFragmentSpreads : List FieldInfo → List Statement
  | [] => []
  | field :: rest => decodeSingleFragmentSpread field ++ decodeFragmentSpreads rest
termination_by l => sizeOf l
decreasing_by
  · have h := one_le_sizeOf_fieldList rest
    simp only [List.cons.sizeOf_spec]
    omega
  · simp only [List.cons.sizeOf_spec]
    omega

end

/-- Embeds `UnmarshalBuilder.BuildUnmarshalMethod`: declare and fill the
raw map, decode regular fields, fragment spreads, inline fragments, and
return nil. -/
def BuildUnmarshalMethod (typeInfo : TypeInfo) : List Statement :=
  let cats := categorizeFieldsList typeInfo.Fields
  [Statement.variableDecl "raw" "map[string]jsontext.Value",
   Statement.errorCheck "json.Unmarshal(data, &raw)" [Statement.returnStmt "err"]]
    ++ DecodeFields "t" "raw" cats.1
    ++ decodeFragmentSpreads cats.2.1
    ++ DecodeInlineFragments "t" "raw" cats.2.2
    ++ [Statement.returnStmt "nil"]

end Querygen


namespace Helpers

/-- Boolean test that `p` is a prefix of the second list. -/
def listHasPre : List Char → List Char → Bool
  | [], _ => true
  | _ :: _, [] => false
  | p :: ps, c :: cs => p = c && listHasPre ps cs

/-- A list is a prefix of itself followed by anything. -/
theorem listHasPre_self_append (p r : List Char) : listHasPre p (p ++ r) = true := by
  induction p with
  | nil => simp [listHasPre]
  | cons c cs ih => simp [listHasPre, ih]

/-- Boolean substring test. -/
def listInfix (pat : List Char) : List Char → Bool
  | [] => pat.isEmpty
  | c :: cs => listHasPre pat (c :: cs) || listInfix pat cs

/-- Whether a Go snippet mentions `json.Unmarshal`. -/
def containsUnmarshal (s : String) : Bool :=
  listInfix "json.Unmarshal".data s.data

/-- Whether a string starts with the given prefix. -/
def hasPre (s pre : String) : Bool :=
  listHasPre pre.data s.data

/-- Appending to a prefix keeps it a prefix. -/
theorem hasPre_append (pre r : String) : hasPre (pre ++ r) pre = true := by
  unfold hasPre
  rw [String.data_append]
  exact listHasPre_self_append pre.data r.data

/-- Lookup in an association list keyed by strings (the embedding of a
Go map read: first matching key from the front). -/
def lookupStr {β : Type} : String → List (String × β) → Option β
  | _, [] => none
  | q, (k, v) :: rest => if q = k then some v else lookupStr q rest

/-- Looking up in an association list after a keyed update. -/
theorem lookupStr_insertReplaceAssoc {β : Type} (m : List (String × β)) (k q : String) (v : β) :
    lookupStr q (Codegen.insertReplaceAssoc m k v) = if q = k then some v else lookupStr q m := by
  induction m with
  | nil =>
      by_cases h : q = k <;> simp [Codegen.insertReplaceAssoc, lookupStr, h]
  | cons kv rest ih =>
      obtain ⟨k0, v0⟩ := kv
      by_cases hk : k0 = k
      · subst hk
        by_cases hq : q = k0 <;> simp [Codegen.insertReplaceAssoc, lookupStr, hq]
      · simp only [Codegen.insertReplaceAssoc, if_neg hk]
        by_cases hq : q = k0
        · have hqk : ¬q = k := fun hh => hk (hq.symm.trans hh)
          simp [lookupStr, hq, hqk, hk]
        · simp [lookupStr, hq, ih]

theorem mem_insertReplaceAssoc {β : Type} (m : List (String × β)) (k : String) (v : β) :
    ∀ e ∈ Codegen.insertReplaceAssoc m k v, e ∈ m ∨ e = (k, v) := by
  induction m with
  | nil => simp [Codegen.insertReplaceAssoc]
  | cons kv rest ih =>
      obtain ⟨k0, v0⟩ := kv
      intro e he
      by_cases hk : k0 = k
      · rw [Codegen.insertReplaceAssoc, if_pos hk] at he
        rcases List.mem_cons.mp he with h | h
        · right; exact h
        · left; exact List.mem_cons_of_mem _ h
      · rw [Codegen.insertReplaceAssoc, if_neg hk] at he
        rcases List.mem_cons.mp he with h | h
        · left; exact List.mem_cons.mpr (Or.inl h)
        · rcases ih e h with h2 | h2
          · left; exact List.mem_cons_of_mem _ h2
          · right; exact h2

theorem nodup_keys_insertReplaceAssoc {β : Type} (m : List (String × β)) (k : String) (v : β)
    (h : (m.map Prod.fst).Nodup) :
    ((Codegen.insertReplaceAssoc m k v).map Prod.fst).Nodup := by
  induction m with
  | nil => simp [Codegen.insertReplaceAssoc]
  | cons kv rest ih =>
      obtain ⟨k0, v0⟩ := kv
      rw [List.map_cons, List.nodup_cons] at h
      by_cases hk : k0 = k
      · rw [Codegen.insertReplaceAssoc, if_pos hk, List.map_cons, List.nodup_cons]
        subst hk
        exact h
      · rw [Codegen.insertReplaceAssoc, if_neg hk, List.map_cons, List.nodup_cons]
        refine ⟨?_, ih h.2⟩
        intro hmem
        rcases List.mem_map.mp hmem with ⟨e, he, hke⟩
        rcases mem_insertReplaceAssoc rest k v e he with h2 | h2
        · exact h.1 (List.mem_map.mpr ⟨e, h2, hke⟩)
        · exact hk (by rw [h2] at hke; exact hke.symm)

/-- Two sorted lists that enumerate the same elements are equal when no
two elements share a sort key. -/
theorem sorted_perm_eq_of_nodup_keys {α : Type} (key : α → String) :
    ∀ (l₁ l₂ : List α), l₁.Perm l₂ →
      l₁.Pairwise (fun a b => key a ≤ key b) →
      l₂.Pairwise (fun a b => key a ≤ key b) →
      (l₁.map key).Nodup → l₁ = l₂ := by
  intro l₁
  induction l₁ with
  | nil => intro l₂ hp _ _ _; exact hp.nil_eq
  | cons a l₁ ih =>
      intro l₂ hp hs₁ hs₂ hn
      rw [List.map_cons, List.nodup_cons] at hn
      cases l₂ with
      | nil => exact absurd hp.symm (by simp)
      | cons b l₂ =>
          by_cases hab : a = b
          · subst hab
            have hs₁x := (List.pairwise_cons.mp hs₁).2
            have hs₂x := (List.pairwise_cons.mp hs₂).2
            exact congrArg (a :: ·) (ih l₂ hp.cons_inv hs₁x hs₂x hn.2)
          · exfalso
            have ha₂ : a ∈ b :: l₂ := hp.mem_iff.mp (List.mem_cons_self a l₁)
            have hb₁ : b ∈ a :: l₁ := hp.symm.mem_iff.mp (List.mem_cons_self b l₂)
            have ha : a ∈ l₂ := by
              rcases List.mem_cons.mp ha₂ with h | h
              · exact absurd h hab
              · exact h
            have hb : b ∈ l₁ := by
              rcases List.mem_cons.mp hb₁ with h | h
              · exact absurd h.symm hab
              · exact h
            have h₁ : key a ≤ key b := (List.pairwise_cons.mp hs₁).1 b hb
            have h₂ : key b ≤ key a := (List.pairwise_cons.mp hs₂).1 a ha
            have hkey : key a = key b := le_antisymm h₁ h₂
            exact hn.1 (hkey ▸ List.mem_map.mpr ⟨b, hb, rfl⟩)

end Helpers

namespace Runtime

open Codegen (insertReplaceAssoc)
open Helpers (lookupStr)
open Querygen

/-- Modelled from the spec: the JSON values a GraphQL response consists
of (§4.7 operates on a JSON object `J`). -/
inductive Json where
  | null
  | boolVal (b : Bool)
  | numVal (n : Int)
  | strVal (s : String)
  | arr (elems : List Json)
  | obj (members : List (String × Json))

/-- Modelled from the spec: the state of one generated `UnmarshalJSON`
invocation: the parsed original input bytes (`data`), the deferred raw
map (`raw`), the string locals (the `typeName_*` variables), the target
record's field values keyed by Go path (`t.X`, `t.X.Y`), and the values
bound by the enclosing `if value/typename, ok := ...` condition. -/
structure Machine where
  data : Json
  raw : List (String × Json)
  locals : List (String × String)
  fields : List (String × Json)
  boundValue : Option Json
  boundTypename : Option Json

/-- Store a decoded value at a target path. -/
def Machine.setField (m : Machine) (p : String) (v : Json) : Machine :=
  { m with fields := insertReplaceAssoc m.fields p v }

/-- Store a string local. -/
def Machine.setLocal (m : Machine) (n s : String) : Machine :=
  { m with locals := insertReplaceAssoc m.locals n s }

/-- Result of executing generated statements: fall through, return
successfully, or return a decode error. -/
inductive StepRes where
  | cont (m : Machine)
  | finished (m : Machine)
  | failed (e : String)

/-- Recognize a string of the shape `pre ++ mid ++ suf` and recover
`mid`; used to read the target path or key back out of the generated Go
snippets. -/
def stripWrap (pre suf s : String) : Option String :=
  let midLen := s.length - pre.length - suf.length
  let mid := String.mk ((s.data.drop pre.length).take midLen)
  if s = pre ++ mid ++ suf then some mid else none

mutual

/-- Modelled from the spec: execution of one generated statement (§4.6's
statement forms, §4.7's runtime contract). Decoding a JSON value into a
leaf field stores the value; decoding the whole input into an embedded
or pointer field stores the input object; `json.Unmarshal` into the raw
map fails unless the input is a JSON object; the bare `json.Unmarshal`
of `__typename` into its local ignores errors (a non-string value leaves
the local unchanged); an error from an error-checked step aborts
execution. Statement shapes the planner never emits execute as
`failed "unmodelled"`. -/
def execStmt (m : Machine) : Statement → StepRes
  | .variableDecl n typ => if typ = "string" then .cont (m.setLocal n "") else .cont m
  | .assignment target _ => .cont (m.setField target (Json.obj []))
  | .returnStmt v => if v = "nil" then .finished m else .failed v
  | .rawStmt code =>
      match stripWrap "json.Unmarshal(typename, &" ")" code with
      | some lname =>
          match m.boundTypename with
          | some (Json.strVal s) => .cont (m.setLocal lname s)
          | _ => .cont m
      | none => .failed "unmodelled"
  | .errorCheck expr _ =>
      match stripWrap "json.Unmarshal(value, &" ")" expr with
      | some p =>
          match m.boundValue with
          | some v => .cont (m.setField p v)
          | none => .cont m
      | none =>
      match stripWrap "json.Unmarshal(data, &" ")" expr with
      | some p =>
          if p = "raw" then
            match m.data with
            | Json.obj kvs => .cont { m with raw := kvs }
            | _ => .failed "cannot unmarshal into map"
          else
            match m.data with
            | Json.obj _ => .cont (m.setField p m.data)
            | _ => .failed "cannot unmarshal into struct"
      | none =>
      match stripWrap "json.Unmarshal(data, " ")" expr with
      | some p =>
          match m.data with
          | Json.obj _ => .cont (m.setField p m.data)
          | _ => .failed "cannot unmarshal into struct"
      | none => .failed "unmodelled"
  | .ifStmt cond body =>
      match stripWrap "value, ok := raw[\"" "\"]; ok" cond with
      | some k =>
          match lookupStr k m.raw with
          | some v =>
              match execStmts { m with boundValue := some v } body with
              | .cont m2 => .cont { m2 with boundValue := none }
              | r => r
          | none => .cont m
      | none =>
          if cond = "typename, ok := raw[\"__typename\"]; ok" then
            match lookupStr "__typename" m.raw with
            | some v =>
                match execStmts { m with boundTypename := some v } body with
                | .cont m2 => .cont { m2 with boundTypename := none }
                | r => r
            | none => .cont m
          else .failed "unmodelled"
  | .switchStmt expr cases =>
      execCases m ((lookupStr expr m.locals).getD "") cases

/-- Modelled from the spec: a switch executes the first case whose label
equals the scrutinee's value, if any. -/
def execCases (m : Machine) (val : String) : List (String × List Statement) → StepRes
  | [] => .cont m
  | (v, body) :: rest => if v = val then execStmts m body else execCases m val rest

/-- Modelled from the spec: statements run in order; the first return or
error stops execution. -/
def execStmts (m : Machine) : List Statement → StepRes
  | [] => .cont m
  | s :: rest =>
      match execStmt m s with
      | .cont m2 => execStmts m2 rest
      | r => r

end

/-- Modelled from the spec: the initial machine for one `UnmarshalJSON`
invocation — the parsed input, an empty raw map, no locals, and the
target's current (zero-valued) fields. -/
def initMachine (data : Json) (fields0 : List (String × Json)) : Machine :=
  ⟨data, [], [], fields0, none, none⟩

end Runtime


namespace Runtime

/-- A wrapped string strips back to its middle. -/
theorem stripWrap_append (pre suf mid : String) :
    stripWrap pre suf (pre ++ mid ++ suf) = some mid := by
  have hlen : ∀ t : String, t.length = t.data.length := fun t => rfl
  have hd : (pre ++ mid ++ suf).data = pre.data ++ (mid.data ++ suf.data) := by
    simp [String.data_append]
  have hmidlen : (pre ++ mid ++ suf).length - pre.length - suf.length = mid.data.length := by
    rw [String.length_append, String.length_append]
    have hm : mid.length = mid.data.length := rfl
    omega
  have hdrop : (pre ++ mid ++ suf).data.drop pre.length = mid.data ++ suf.data := by
    rw [hd, hlen pre, List.drop_left]
  have htake : (mid.data ++ suf.data).take mid.data.length = mid.data := List.take_left _ _
  have hmid : String.mk (((pre ++ mid ++ suf).data.drop pre.length).take
      ((pre ++ mid ++ suf).length - pre.length - suf.length)) = mid := by
    rw [hmidlen, hdrop, htake]
  unfold stripWrap
  simp only [hmid]
  simp

/-- A successful strip recovers the decomposition. -/
theorem stripWrap_some (pre suf s mid : String) (h : stripWrap pre suf s = some mid) :
    s = pre ++ mid ++ suf := by
  simp only [stripWrap] at h
  split at h
  · cases h
    assumption
  · cases h

end Runtime

namespace Claims

open Codegen

/-- Nullability/sequence structure of a wrapped type expression relative
to an atomic base: pointers read as nullable, slices as sequences. -/
inductive Shape where
  | base
  | opt (s : Shape)
  | seq (s : Shape)
deriving DecidableEq, Repr

/-- Reads the nullability structure off a Go type expression down to the
first non-pointer, non-slice atom. -/
def shapeOf : GoType → Shape
  | .pointer e => Shape.opt (shapeOf e)
  | .slice e => Shape.seq (shapeOf e)
  | _ => Shape.base

/-- Follows the claim's words for C2 (the spec-side definition): a named
reference yields the base when non-null and a nullable wrapper
otherwise; a list yields a sequence of the recursively wrapped element,
nullable exactly when the list is not non-null. -/
def refShape : GqlTypeRef → Shape
  | .named _ nn => if nn then Shape.base else Shape.opt Shape.base
  | .listOf e nn =>
      let s := Shape.seq (refShape e)
      if nn then s else Shape.opt s

/-- The structure the source's resolver actually produces over a base
shape: as `refShape`, except that each list level first makes its
element base nullable (one extra pointer per list nesting). -/
def shapeWrap : GqlTypeRef → Shape → Shape
  | .named _ nn, s0 => if nn then s0 else Shape.opt s0
  | .listOf e nn, s0 =>
      let t := Shape.seq (shapeWrap e (Shape.opt s0))
      if nn then t else Shape.opt t

/-- The resolver transforms shapes exactly by `shapeWrap`. -/
theorem shapeOf_wrap (g : GenConfig) (e : GqlTypeRef) :
    ∀ b : GoType, shapeOf (wrapWithListAndNullability g b e) = shapeWrap e (shapeOf b) := by
  induction e with
  | named n nn =>
      intro b
      cases nn <;> simp [wrapWithListAndNullability, shapeWrap, shapeOf]
  | listOf e nn ih =>
      intro b
      cases nn <;>
        simp [wrapWithListAndNullability, shapeWrap, shapeOf, ih (GoType.pointer b)]

/-- Shared concrete generator configuration for counterexamples. -/
def cgen : GenConfig :=
  ⟨false, none, none, "q", fun _ => GoType.basic "string", id⟩

/-- Concrete base type for the C2 counterexample: the synthesized named
object type the resolver receives. -/
def c2base : GoType := GoType.named "q" "T" (GoType.strct [] [])

/-- Concrete reference for the C2 counterexample: `[X!]!`, a non-null
list of non-null named elements. -/
def c2ref : GqlTypeRef := GqlTypeRef.listOf (GqlTypeRef.named "X" true) true

/-- C2 counterexample: for the non-null list of non-null elements `[X!]!`
the resolver produces a sequence of *nullable* elements — one pointer is
added to the element regardless of its non-null flag — so the produced
nullability structure does not match the reference exactly. -/
theorem c2_wrapping_not_exact :
    shapeOf c2base = Shape.base ∧
    shapeOf (wrapWithListAndNullability cgen c2base c2ref) = Shape.seq (Shape.opt Shape.base) ∧
    refShape c2ref = Shape.seq Shape.base ∧
    shapeOf (wrapWithListAndNullability cgen c2base c2ref) ≠ refShape c2ref := by
  refine ⟨rfl, rfl, rfl, ?_⟩
  decide

/-- C2 (amended): for every GraphQL Type Reference, the wrapped
expression's structure over the base is `shapeWrap`: a named reference
yields the base when non-null and a nullable base otherwise (exact
match); a list reference yields a sequence of the recursively wrapped
element *whose base is first made nullable* (so object elements inside
lists always carry one pointer, plus another when the element reference
is itself nullable), and the sequence is nullable exactly when the list
is not non-null. -/
theorem c2_wrapping_structure (g : GenConfig) (b : GoType) (e : GqlTypeRef) :
    shapeOf (wrapWithListAndNullability g b e) = shapeWrap e (shapeOf b) ∧
    (∀ (n : String) (nn : Bool), shapeWrap (GqlTypeRef.named n nn) Shape.base =
      refShape (GqlTypeRef.named n nn)) := by
  refine ⟨shapeOf_wrap g e b, ?_⟩
  intro n nn
  cases nn <;> rfl

/-- C10: the Name Mangler on an empty parent scope returns `"_"`
followed by the exported form of the alias, for either value of
`exportQueryType`; the first-rune re-casing functions return the empty
string unchanged; hence every such type name begins with an
underscore. -/
theorem c10_mangler_empty_parent (toGo : String → String) (a : String) (e : Bool) :
    fieldTypeName toGo "" a e = "_" ++ toGo a ∧
    firstUpper "" = "" ∧ firstLower "" = "" ∧
    Helpers.hasPre (fieldTypeName toGo "" a e) "_" = true := by
  have h : fieldTypeName toGo "" a e = "_" ++ toGo a := by
    cases e <;> simp [fieldTypeName, firstUpper, firstLower]
  exact ⟨h, rfl, rfl, by rw [h]; exact Helpers.hasPre_append "_" (toGo a)⟩

end Claims

namespace Claims

open Codegen

/-- Embeds `FieldAnalyzer.IsInlineFragment` (same logic in
`FieldClassifier.IsInlineFragment`), applied to a field's exported flag,
parsed JSON tag, and pointer-ness: inline-fragment fields must be
exported, have an empty or `-` JSON tag, and be pointer-typed. -/
def IsInlineFragmentCheck (exported : Bool) (jsonTag : String) (isPointer : Bool) : Bool :=
  if !exported then false
  else if jsonTag ≠ "" ∧ jsonTag ≠ "-" then false
  else isPointer

/-- The concrete inline-fragment selection `... on User { name }` for
the C1 evaluation. -/
def c1sel : Selection :=
  Selection.inlineFragment "User" [Selection.field "name" (GqlTypeRef.named "String" true) []]

/-- C1: evaluating the Shape Builder on the inline fragment
`... on User { name }` shows the produced Field Record is named after
the type condition with wire tag `json:"-"` and children built with an
empty parent scope, but its type expression is the synthesized struct
itself — *not* a nullable pointer to it — so the decoder side's
`IsInlineFragment` classifier (which requires a pointer type) rejects
it. -/
theorem c1_inline_fragment_not_pointer :
    (newField cgen "parent" c1sel []).1 =
      ⟨"User",
        GoType.strct [("name", GoType.basic "string", false)] ["json:\"name\""],
        ["json:\"-\""], TypeKind.inlineFragment⟩ ∧
    GoType.isPtr (newField cgen "parent" c1sel []).1.typ = false ∧
    IsInlineFragmentCheck true "-" (GoType.isPtr (newField cgen "parent" c1sel []).1.typ)
      = false := by
  have h : (newField cgen "parent" c1sel []).1 =
      ⟨"User",
        GoType.strct [("name", GoType.basic "string", false)] ["json:\"name\""],
        ["json:\"-\""], TypeKind.inlineFragment⟩ := by
    simp [c1sel, newField, newFields, newTypeKindAndGoType, cgen, goStructType,
      uniqueByName, insertReplaceAssoc, buildGoType, buildGoTypeHelper, findGoType,
      fieldTypeName, firstLower, jsonOmitTag, Field.goVar, Field.joinTags,
      GqlTypeRef.topNonNull, List.insertionSort, List.orderedInsert]
    rfl
  refine ⟨h, ?_, ?_⟩
  · rw [h]
    rfl
  · rw [h]
    rfl

/-- Concrete operation for the C7 counterexample. -/
def c7op : Operation := ⟨"op", [Selection.field "f" (GqlTypeRef.named "S" true) []]⟩

/-- C7 counterexample: the Synthesizer registers the top-level type for
operation `op` under the operation's own name (catalog key `*q.op`),
while the Name Mangler applied to `(op, "")` returns `"op_"` — the
top-level name is not computed by the Mangler. -/
theorem c7_toplevel_name_not_mangled :
    (createGoTypesState cgen [c7op] []).map Prod.fst = ["*q.op"] ∧
    fieldTypeName cgen.toGo "op" "" cgen.exportQueryType = "op_" ∧
    fieldTypeName cgen.toGo "op" "" cgen.exportQueryType ≠ "op" := by
  refine ⟨?_, ?_, ?_⟩
  · simp [createGoTypesState, createStep, c7op, newFields, newField, newTypeKindAndGoType,
      cgen, newGoNamedType, goStructType, uniqueByName, insertReplaceAssoc, buildGoType,
      buildGoTypeHelper, findGoType, fieldTypeName, firstLower, jsonOmitTag,
      Field.goVar, Field.joinTags, GoType.toString, List.insertionSort, List.orderedInsert]
  · simp [cgen, fieldTypeName, firstLower]
  · simp [cgen, fieldTypeName, firstLower]

/-- Re-casing the first rune preserves the length. -/
theorem firstUpper_length (s : String) : (firstUpper s).length = s.length := by
  have hl : ∀ t : String, t.length = t.data.length := fun _ => rfl
  cases hs : s.data with
  | nil => simp [firstUpper, hs]
  | cons c cs =>
      simp [firstUpper, hs, hl, String.mk]

/-- Re-casing the first rune preserves the length. -/
theorem firstLower_length (s : String) : (firstLower s).length = s.length := by
  have hl : ∀ t : String, t.length = t.data.length := fun _ => rfl
  cases hs : s.data with
  | nil => simp [firstLower, hs]
  | cons c cs =>
      simp [firstLower, hs, hl, String.mk]

/-- C7 (amended): for every operation the Synthesizer builds the
operation's fields with the operation name as parent scope, then
registers the top-level Synthesized Named Type under the operation's
*own* name, as a nullable pointer type, in the catalog under that
type's rendering; the Name Mangler (which would append `"_"` and the
exported empty alias) never produces the operation's unchanged name, so
the top-level name is not a Mangler result. -/
theorem c7_toplevel_registered_under_operation_name (g : GenConfig) (st : TypesMap)
    (op : Operation) :
    (let fs := newFields g op.name op.selectionSet st
     let top := GoType.pointer (GoType.named g.pkg op.name (goStructType g.toGo fs.1))
     createStep g st op = insertReplaceAssoc fs.2 top.toString top ∧
       Helpers.lookupStr top.toString (createStep g st op) = some top) ∧
    ∀ (toGo : String → String) (nm : String) (e : Bool), fieldTypeName toGo nm "" e ≠ nm := by
  constructor
  · constructor
    · simp [createStep, newGoNamedType]
    · simp only [createStep, newGoNamedType, Bool.not_false, if_pos]
      rw [Helpers.lookupStr_insertReplaceAssoc]
      simp
  · intro toGo nm e h
    have hlen := congrArg String.length h
    have h1 : ("_" : String).length = 1 := rfl
    cases e with
    | false =>
        rw [show fieldTypeName toGo nm "" false = firstLower nm ++ "_" ++ toGo "" from rfl,
          String.length_append, String.length_append, firstLower_length] at hlen
        omega
    | true =>
        rw [show fieldTypeName toGo nm "" true = firstUpper nm ++ "_" ++ toGo "" from rfl,
          String.length_append, String.length_append, firstUpper_length] at hlen
        omega

end Claims

namespace Claims

open Codegen

/-- The catalog sort key: the rendered type with one leading `*`
stripped. -/
def catalogKey (t : GoType) : String := stripStar t.toString

instance : IsTotal GoType (fun a b => stripStar a.toString ≤ stripStar b.toString) :=
  ⟨fun a b => le_total (stripStar a.toString) (stripStar b.toString)⟩

instance : IsTrans GoType (fun a b => stripStar a.toString ≤ stripStar b.toString) :=
  ⟨fun _ _ _ hab hbc => le_trans hab hbc⟩

/-- C6 (amended): the enumeration is always sorted by the star-stripped
rendering, and when no two catalog values share a star-stripped
rendering — in particular whenever no operation name doubles as a
fragment name — every map-iteration order yields the same sorted list,
so the output is deterministic. -/
theorem c6_enumeration_deterministic_when_keys_distinct (vals l₁ l₂ : List GoType)
    (hkeys : (vals.map catalogKey).Nodup)
    (h₁ : l₁.Perm vals) (h₂ : l₂.Perm vals) :
    goTypesFrom l₁ = goTypesFrom l₂ ∧
    (goTypesFrom l₁).Pairwise (fun a b => catalogKey a ≤ catalogKey b) := by
  have hs₁ : (goTypesFrom l₁).Pairwise (fun a b => stripStar a.toString ≤ stripStar b.toString) :=
    List.sorted_insertionSort _ l₁
  have hs₂ : (goTypesFrom l₂).Pairwise (fun a b => stripStar a.toString ≤ stripStar b.toString) :=
    List.sorted_insertionSort _ l₂
  have hp : (goTypesFrom l₁).Perm (goTypesFrom l₂) :=
    ((List.perm_insertionSort _ l₁).trans (h₁.trans h₂.symm)).trans
      (List.perm_insertionSort _ l₂).symm
  have hn : ((goTypesFrom l₁).map catalogKey).Nodup := by
    have : (goTypesFrom l₁).Perm vals := (List.perm_insertionSort _ l₁).trans h₁
    exact (this.map catalogKey).nodup_iff.mpr hkeys
  exact ⟨Helpers.sorted_perm_eq_of_nodup_keys catalogKey _ _ hp hs₁ hs₂ hn, hs₁⟩

/-- Witness catalog values for the amended C6 theorem. -/
def c6valA : GoType := GoType.named "q" "A" (GoType.strct [] [])

/-- Witness catalog values for the amended C6 theorem. -/
def c6valB : GoType := GoType.named "q" "B" (GoType.strct [] [])

/-- Witness for the amended C6 theorem at a concrete two-type catalog
with distinct keys. -/
theorem c6_enumeration_deterministic_witness :
    ((([c6valA, c6valB] : List GoType).map catalogKey).Nodup ∧
      ([c6valB, c6valA] : List GoType).Perm [c6valA, c6valB] ∧
      ([c6valA, c6valB] : List GoType).Perm [c6valA, c6valB]) ∧
    (goTypesFrom [c6valB, c6valA] = goTypesFrom [c6valA, c6valB] ∧
      (goTypesFrom [c6valB, c6valA]).Pairwise (fun a b => catalogKey a ≤ catalogKey b)) := by
  have hk : (([c6valA, c6valB] : List GoType).map catalogKey).Nodup := by
    have : ([c6valA, c6valB] : List GoType).map catalogKey = ["q.A", "q.B"] := rfl
    rw [this]
    decide
  have hperm : ([c6valB, c6valA] : List GoType).Perm [c6valA, c6valB] :=
    List.Perm.swap c6valA c6valB []
  exact ⟨⟨hk, hperm, List.Perm.refl _⟩,
    c6_enumeration_deterministic_when_keys_distinct [c6valA, c6valB] [c6valB, c6valA]
      [c6valA, c6valB] hk hperm (List.Perm.refl _)⟩

/-- Operations for the C6 counterexample: an operation and a fragment
that share the name `Foo`, which the synthesizer registers under the
colliding keys `q.Foo` (fragment, non-null) and `*q.Foo` (operation,
pointer). -/
def c6ops : List Operation :=
  [⟨"Foo", [Selection.fragmentSpread "Foo" [Selection.field "id" (GqlTypeRef.named "ID" true) []]]⟩]

/-- The fragment type the C6 counterexample registers. -/
def c6fragType : GoType :=
  GoType.named "q" "Foo" (GoType.strct [("id", GoType.basic "string", false)] ["json:\"id\""])

/-- The operation type the C6 counterexample registers. -/
def c6opType : GoType :=
  GoType.pointer (GoType.named "q" "Foo" (GoType.strct [("Foo", c6fragType, true)] ["json:\"-\""]))

/-- C6 counterexample: after synthesizing an operation named `Foo` that
spreads a fragment named `Foo`, the catalog holds two values whose
star-stripped renderings coincide (`q.Foo`), and two map-iteration
orders of the same catalog produce *different* enumerations — the
output is not independent of iteration order, hence not identical
across runs. -/
theorem c6_enumeration_depends_on_iteration_order :
    (createGoTypesState cgen c6ops []).map Prod.snd = [c6fragType, c6opType] ∧
    ([c6opType, c6fragType] : List GoType).Perm [c6fragType, c6opType] ∧
    goTypesFrom [c6opType, c6fragType] ≠ goTypesFrom [c6fragType, c6opType] := by
  refine ⟨?_, List.Perm.swap c6fragType c6opType [], ?_⟩
  · simp [createGoTypesState, createStep, c6ops, newFields, newField, newTypeKindAndGoType,
      cgen, newGoNamedType, goStructType, uniqueByName, insertReplaceAssoc, buildGoType,
      buildGoTypeHelper, findGoType, fieldTypeName, firstLower, jsonOmitTag,
      Field.goVar, Field.joinTags, GoType.toString, List.insertionSort, List.orderedInsert,
      c6fragType, c6opType]
    exact ⟨rfl, rfl⟩
  · intro h
    have h2 : goTypesFrom [c6opType, c6fragType] = [c6opType, c6fragType] := by
      simp [goTypesFrom, List.insertionSort, List.orderedInsert, stripStar,
        c6fragType, c6opType, GoType.toString]
    have h3 : goTypesFrom [c6fragType, c6opType] = [c6fragType, c6opType] := by
      simp [goTypesFrom, List.insertionSort, List.orderedInsert, stripStar,
        c6fragType, c6opType, GoType.toString]
    rw [h2, h3] at h
    have h4 := congrArg (fun l => l.map GoType.isPtr) h
    simp [c6fragType, c6opType, GoType.isPtr] at h4

end Claims

namespace Claims

open Codegen Helpers

/-- The name-keyed map `uniqueByName` builds, starting from `m`. -/
def nameMapFrom (m : List (String × Field)) (fs : List Field) : List (String × Field) :=
  fs.foldl (fun m f => insertReplaceAssoc m f.name f) m

theorem uniqueByName_eq (fs : List Field) :
    uniqueByName fs =
      ((nameMapFrom [] fs).map Prod.snd).insertionSort (fun a b => a.name ≤ b.name) := rfl

theorem nameMapFrom_entries (fs : List Field) :
    ∀ (m : List (String × Field)), (∀ e ∈ m, (e : String × Field).2.name = e.1) →
      ∀ e ∈ nameMapFrom m fs, (e : String × Field).2.name = e.1 := by
  induction fs with
  | nil => intro m hm e he; exact hm e he
  | cons f rest ih =>
      intro m hm e he
      refine ih (insertReplaceAssoc m f.name f) ?_ e he
      intro e2 he2
      rcases mem_insertReplaceAssoc m f.name f e2 he2 with h | h
      · exact hm e2 h
      · rw [h]

theorem nameMapFrom_nodup_keys (fs : List Field) :
    ∀ (m : List (String × Field)), (m.map Prod.fst).Nodup →
      ((nameMapFrom m fs).map Prod.fst).Nodup := by
  induction fs with
  | nil => intro m hm; exact hm
  | cons f rest ih =>
      intro m hm
      exact ih _ (nodup_keys_insertReplaceAssoc m f.name f hm)

theorem lookup_nameMapFrom (fs : List Field) :
    ∀ (m : List (String × Field)) (n : String),
      lookupStr n (nameMapFrom m fs) =
        (fs.reverse.find? (fun f => f.name = n)).or (lookupStr n m) := by
  induction fs with
  | nil => intro m n; simp [nameMapFrom]
  | cons f rest ih =>
      intro m n
      have h1 : nameMapFrom m (f :: rest) = nameMapFrom (insertReplaceAssoc m f.name f) rest := rfl
      rw [h1, ih, List.reverse_cons, List.find?_append, lookupStr_insertReplaceAssoc]
      cases hf : rest.reverse.find? (fun x => x.name = n) with
      | some v => simp [Option.or]
      | none =>
          by_cases hn : n = f.name
          · simp [Option.or, List.find?, hn]
          · have : ¬(f.name = n) := fun h => hn h.symm
            simp [Option.or, List.find?, this, hn]

theorem lookupStr_of_mem_nodup {β : Type} :
    ∀ (m : List (String × β)) (k : String) (v : β),
      (m.map Prod.fst).Nodup → (k, v) ∈ m → lookupStr k m = some v := by
  intro m
  induction m with
  | nil => intro k v _ h; cases h
  | cons e rest ih =>
      intro k v hn hm
      obtain ⟨k0, v0⟩ := e
      rw [List.map_cons, List.nodup_cons] at hn
      rcases List.mem_cons.mp hm with h | h
      · cases h
        simp [lookupStr]
      · have hk : ¬(k = k0) := by
          intro hkk
          subst hkk
          exact hn.1 (List.mem_map.mpr ⟨(k, v), h, rfl⟩)
        simp [lookupStr, hk]
        exact ih k v hn.2 h

theorem mem_of_lookupStr {β : Type} :
    ∀ (m : List (String × β)) (k : String) (v : β),
      lookupStr k m = some v → (k, v) ∈ m := by
  intro m
  induction m with
  | nil => intro k v h; cases h
  | cons e rest ih =>
      intro k v h
      obtain ⟨k0, v0⟩ := e
      by_cases hk : k = k0
      · subst hk
        simp [lookupStr] at h
        simp [h]
      · simp [lookupStr, hk] at h
        exact List.mem_cons_of_mem _ (ih k v h)

instance : IsTotal Field (fun a b => a.name ≤ b.name) :=
  ⟨fun a b => le_total a.name b.name⟩

instance : IsTrans Field (fun a b => a.name ≤ b.name) :=
  ⟨fun _ _ _ hab hbc => le_trans hab hbc⟩

/-- C3: the collapsed child list contains exactly one record per name:
it is strictly sorted by name, a name occurs in it exactly when some
sibling had that name, and the surviving record for each name is the
last-written sibling with that name. -/
theorem c3_duplicate_collapse (fs : List Field) :
    (uniqueByName fs).Pairwise (fun a b => a.name < b.name) ∧
    (∀ n, (∃ f ∈ uniqueByName fs, f.name = n) ↔ (∃ f ∈ fs, f.name = n)) ∧
    (∀ f ∈ uniqueByName fs, fs.reverse.find? (fun x => x.name = f.name) = some f) := by
  have hperm : (uniqueByName fs).Perm ((nameMapFrom [] fs).map Prod.snd) := by
    rw [uniqueByName_eq]
    exact List.perm_insertionSort _ _
  have hentries := nameMapFrom_entries fs [] (by simp)
  have hnodup : ((nameMapFrom [] fs).map Prod.fst).Nodup := nameMapFrom_nodup_keys fs [] (by simp)
  have hnames : ((nameMapFrom [] fs).map Prod.snd).map Field.name = (nameMapFrom [] fs).map Prod.fst := by
    rw [List.map_map]
    exact List.map_congr_left (fun e he => hentries e he)
  have hlast : ∀ f ∈ (nameMapFrom [] fs).map Prod.snd,
      fs.reverse.find? (fun x => x.name = f.name) = some f := by
    intro f hf
    rcases List.mem_map.mp hf with ⟨e, he, hfe⟩
    obtain ⟨k, v⟩ := e
    have hfv : f = v := hfe.symm
    subst hfv
    have hk : f.name = k := hentries (k, f) he
    have hl : lookupStr k (nameMapFrom [] fs) = some f :=
      lookupStr_of_mem_nodup _ k f hnodup he
    rw [lookup_nameMapFrom fs [] k] at hl
    simp only [lookupStr, Option.or_none] at hl
    rw [hk]
    exact hl
  have hsorted : (uniqueByName fs).Pairwise (fun a b => a.name ≤ b.name) := by
    rw [uniqueByName_eq]
    exact List.sorted_insertionSort _ _
  have hnodupr : ((uniqueByName fs).map Field.name).Nodup := by
    have := (hperm.map Field.name).nodup_iff.mpr (hnames ▸ hnodup)
    exact this
  refine ⟨?_, ?_, ?_⟩
  · have hne : (uniqueByName fs).Pairwise (fun a b => a.name ≠ b.name) :=
      (List.pairwise_map.mp hnodupr)
    exact (hsorted.and hne).imp (fun h => lt_of_le_of_ne h.1 h.2)
  · intro n
    constructor
    · rintro ⟨f, hf, hfn⟩
      have hf2 := hperm.mem_iff.mp hf
      have := hlast f hf2
      rw [hfn] at this
      rcases List.mem_of_find?_eq_some this with hmem
      have hp := List.find?_some this
      simp only [decide_eq_true_eq] at hp
      exact ⟨f, List.mem_reverse.mp hmem, hp⟩
    · rintro ⟨f, hf, hfn⟩
      have hsome : (fs.reverse.find? (fun x => x.name = n)).isSome := by
        rw [List.find?_isSome]
        exact ⟨f, List.mem_reverse.mpr hf, by simp [hfn]⟩
      rcases Option.isSome_iff_exists.mp hsome with ⟨v, hv⟩
      have hlook : lookupStr n (nameMapFrom [] fs) = some v := by
        rw [lookup_nameMapFrom fs [] n, hv]
        rfl
      have hmem := mem_of_lookupStr _ n v hlook
      have hvn : v.name = n := hentries (n, v) hmem
      exact ⟨v, hperm.mem_iff.mpr (List.mem_map.mpr ⟨(n, v), hmem, rfl⟩), hvn⟩
  · intro f hf
    exact hlast f (hperm.mem_iff.mp hf)

end Claims

namespace Claims

open Querygen Helpers

/-- A handler body that immediately returns the error, as the claim
requires of every wrapped decode step. -/
def errBody : List Statement → Bool
  | [Statement.returnStmt v] => v = "err"
  | _ => false

mutual

/-- Strict reading of C4: every `json.Unmarshal` appears only as the
expression of an error check whose handler returns the error; a bare
(raw) statement may not mention `json.Unmarshal` at all. -/
def decodeStepsOk : Statement → Bool
  | Statement.rawStmt code => !(containsUnmarshal code)
  | Statement.errorCheck _ body => errBody body
  | Statement.ifStmt _ body => decodeStepsOkList body
  | Statement.switchStmt _ cases => decodeStepsOkCases cases
  | _ => true

/-- `decodeStepsOk` over switch cases. -/
def decodeStepsOkCases : List (String × List Statement) → Bool
  | [] => true
  | c :: rest => decodeStepsOkList c.2 && decodeStepsOkCases rest

/-- `decodeStepsOk` over a statement list. -/
def decodeStepsOkList : List Statement → Bool
  | [] => true
  | s :: rest => decodeStepsOk s && decodeStepsOkList rest

end

mutual

/-- Relaxed reading (the amended C4): as `decodeStepsOk`, except that
the single bare unmarshal of `__typename` into the type-name local is
exempt. -/
def decodeStepsOkExceptTypename : Statement → Bool
  | Statement.rawStmt code =>
      !(containsUnmarshal code) || hasPre code "json.Unmarshal(typename, &"
  | Statement.errorCheck _ body => errBody body
  | Statement.ifStmt _ body => decodeStepsOkXList body
  | Statement.switchStmt _ cases => decodeStepsOkXCases cases
  | _ => true

/-- `decodeStepsOkExceptTypename` over switch cases. -/
def decodeStepsOkXCases : List (String × List Statement) → Bool
  | [] => true
  | c :: rest => decodeStepsOkXList c.2 && decodeStepsOkXCases rest

/-- `decodeStepsOkExceptTypename` over a statement list. -/
def decodeStepsOkXList : List Statement → Bool
  | [] => true
  | s :: rest => decodeStepsOkExceptTypename s && decodeStepsOkXList rest

end

/-- The inline fragment used in the C4 counterexample. -/
def c4frag : InlineFragmentInfo :=
  ⟨FieldInfo.mk "User" "-" true false true true "UserFragment" [], "t.User", "UserFragment"⟩

/-- C4 counterexample: the inline-fragment decoder emits the decode of
`raw["__typename"]` into the type-name local as a bare statement whose
`json.Unmarshal` error is discarded — it is not wrapped in an error
check, so not every decode step's error is returned. -/
theorem c4_typename_decode_not_wrapped :
    DecodeInlineFragments "t" "raw" [c4frag] =
      [Statement.variableDecl "typeName_t" "string",
       Statement.ifStmt "typename, ok := raw[\"__typename\"]; ok"
         [Statement.rawStmt "json.Unmarshal(typename, &typeName_t)"],
       Statement.switchStmt "typeName_t"
         [("User",
           [Statement.assignment "t.User" "&UserFragment\x7b\x7d",
            Statement.errorCheck "json.Unmarshal(data, t.User)"
              [Statement.returnStmt "err"]])]] ∧
    containsUnmarshal "json.Unmarshal(typename, &typeName_t)" = true ∧
    decodeStepsOk (Statement.rawStmt "json.Unmarshal(typename, &typeName_t)") = false ∧
    decodeStepsOkList (DecodeInlineFragments "t" "raw" [c4frag]) = false := by
  have h1 : DecodeInlineFragments "t" "raw" [c4frag] =
      [Statement.variableDecl "typeName_t" "string",
       Statement.ifStmt "typename, ok := raw[\"__typename\"]; ok"
         [Statement.rawStmt "json.Unmarshal(typename, &typeName_t)"],
       Statement.switchStmt "typeName_t"
         [("User",
           [Statement.assignment "t.User" "&UserFragment\x7b\x7d",
            Statement.errorCheck "json.Unmarshal(data, t.User)"
              [Statement.returnStmt "err"]])]] := rfl
  have h2 : containsUnmarshal "json.Unmarshal(typename, &typeName_t)" = true := by decide
  have h3 : decodeStepsOk (Statement.rawStmt "json.Unmarshal(typename, &typeName_t)") = false := by
    simp [decodeStepsOk, h2]
  refine ⟨h1, h2, h3, ?_⟩
  rw [h1]
  simp [decodeStepsOkList, decodeStepsOk, h2]

end Claims

namespace Claims

open Querygen Helpers

theorem decodeStepsOkXList_append (a b : List Statement) :
    decodeStepsOkXList (a ++ b) = (decodeStepsOkXList a && decodeStepsOkXList b) := by
  induction a with
  | nil => simp [decodeStepsOkXList]
  | cons s rest ih => simp [decodeStepsOkXList, ih, Bool.and_assoc]

theorem decodeFields_okX (t r : String) (l : List FieldInfo) :
    decodeStepsOkXList (DecodeFields t r l) = true := by
  induction l with
  | nil => rfl
  | cons f rest ih =>
      rw [DecodeFields]
      split
      · exact ih
      · split
        · exact ih
        · simp [decodeStepsOkXList, decodeStepsOkExceptTypename, DecodeField, errBody, ih]

theorem createSwitchCases_okX (inls : List InlineFragmentInfo) :
    decodeStepsOkXCases (createSwitchCases inls) = true := by
  induction inls with
  | nil => rfl
  | cons frag rest ih =>
      simp [createSwitchCases, decodeStepsOkXCases, decodeStepsOkXList,
        decodeStepsOkExceptTypename, errBody] at ih ⊢
      exact ih

theorem decodeInlineFragments_okX (t r : String) (inls : List InlineFragmentInfo) :
    decodeStepsOkXList (DecodeInlineFragments t r inls) = true := by
  by_cases h : inls.isEmpty
  · simp [DecodeInlineFragments, h, decodeStepsOkXList]
  · simp only [DecodeInlineFragments, h, Bool.false_eq_true, if_false]
    have hpre : hasPre ("json.Unmarshal(typename, &" ++ typeNameVarOf t ++ ")")
        "json.Unmarshal(typename, &" = true := by
      rw [String.append_assoc]
      exact hasPre_append "json.Unmarshal(typename, &" (typeNameVarOf t ++ ")")
    simp [decodeStepsOkXList, decodeStepsOkExceptTypename, hpre,
      createSwitchCases_okX inls]

theorem decodeFragmentSpreads_okX (l : List FieldInfo) :
    decodeStepsOkXList (decodeFragmentSpreads l) = true := by
  refine Querygen.decodeFragmentSpreads.induct
    (fun pf => decodeStepsOkXList (decodeNestedFields pf) = true)
    (fun l => decodeStepsOkXList (decodeFragmentSpreads l) = true)
    (fun f => decodeStepsOkXList (decodeSingleFragmentSpread f) = true)
    ?_ ?_ ?_ ?_ l
  · intro parentField etgt cats ih
    have ih2 : decodeStepsOkXList (decodeFragmentSpreads
        (categorizeFieldsListWithPath parentField.SubFields ("t." ++ parentField.Name)).2.1)
        = true := ih
    simp only [decodeNestedFields, decodeStepsOkXList_append]
    rw [ih2, decodeInlineFragments_okX]
    rfl
  · simp [decodeFragmentSpreads, decodeStepsOkXList]
  · intro f rest ihf ihrest
    simp only [decodeFragmentSpreads, decodeStepsOkXList_append]
    rw [ihf, ihrest]
    rfl
  · intro f ih
    simp only [decodeSingleFragmentSpread]
    by_cases h : 0 < f.SubFields.length
    · simp only [h, if_true]
      simp [decodeStepsOkXList, buildFragmentUnmarshalStatement,
        decodeStepsOkExceptTypename, errBody, ih]
    · simp only [h, if_false]
      simp [decodeStepsOkXList, buildFragmentUnmarshalStatement,
        decodeStepsOkExceptTypename, errBody]

/-- C4 (amended): in every generated decoder plan, every decode step is
wrapped in an error check whose handler returns the first error —
except the single bare decode of `raw["__typename"]` into the type-name
local, whose error is discarded. -/
theorem c4_all_decodes_wrapped_except_typename (ti : TypeInfo) :
    decodeStepsOkXList (BuildUnmarshalMethod ti) = true := by
  rw [BuildUnmarshalMethod]
  rw [decodeStepsOkXList_append, decodeStepsOkXList_append, decodeStepsOkXList_append,
    decodeStepsOkXList_append]
  rw [decodeFields_okX, decodeInlineFragments_okX, decodeFragmentSpreads_okX]
  rfl

end Claims

namespace Claims

open Querygen Helpers

/-- No inline-fragment fields anywhere the planner will look: none in
this list, and, for fields the planner recurses into (embedded fields
with an empty or `-` tag), none in their sub-fields either. -/
def noInlinePlanned : List FieldInfo → Bool
  | [] => true
  | f :: rest =>
      !f.IsInlineFragment &&
        (if f.IsEmbedded ∧ (f.JSONTag = "" ∨ f.JSONTag = "-") then noInlinePlanned f.SubFields
         else true) &&
        noInlinePlanned rest
termination_by l => sizeOf l
decreasing_by
  all_goals simp only [List.cons.sizeOf_spec]
  · have h1 := Querygen.sizeOf_SubFields_lt field
    omega
  · omega

mutual

/-- No inline-fragment decoding machinery: no switch statement, no
string local declaration, no bare (raw) statement anywhere. -/
def inlineFree : Statement → Bool
  | Statement.switchStmt _ _ => false
  | Statement.variableDecl _ typ => !(decide (typ = "string"))
  | Statement.rawStmt _ => false
  | Statement.ifStmt _ body => inlineFreeList body
  | Statement.errorCheck _ body => inlineFreeList body
  | _ => true

/-- `inlineFree` over a statement list. -/
def inlineFreeList : List Statement → Bool
  | [] => true
  | s :: rest => inlineFree s && inlineFreeList rest

end

theorem inlineFreeList_append (a b : List Statement) :
    inlineFreeList (a ++ b) = (inlineFreeList a && inlineFreeList b) := by
  induction a with
  | nil => simp [inlineFreeList]
  | cons s rest ih => simp [inlineFreeList, ih, Bool.and_assoc]

theorem decodeFields_inlineFree (t r : String) (l : List FieldInfo) :
    inlineFreeList (DecodeFields t r l) = true := by
  induction l with
  | nil => rfl
  | cons f rest ih =>
      rw [DecodeFields]
      split
      · exact ih
      · split
        · exact ih
        · simp [inlineFreeList, inlineFree, DecodeField, ih]

theorem categorize_inls_nil (l : List FieldInfo) (p : String)
    (h : noInlinePlanned l = true) :
    (categorizeFieldsListWithPath l p).2.2 = [] := by
  induction l with
  | nil => rfl
  | cons f rest ih =>
      simp only [noInlinePlanned, Bool.and_eq_true, Bool.not_eq_true'] at h
      simp only [categorizeFieldsListWithPath]
      rw [if_neg (by simp [h.1.1])]
      split
      · exact ih h.2
      · exact ih h.2

theorem categorize_spreads_noInline (l : List FieldInfo) (p : String)
    (h : noInlinePlanned l = true) :
    ∀ f ∈ (categorizeFieldsListWithPath l p).2.1, noInlinePlanned f.SubFields = true := by
  induction l with
  | nil => intro f hf; cases hf
  | cons f rest ih =>
      simp only [noInlinePlanned, Bool.and_eq_true, Bool.not_eq_true'] at h
      intro f2 hf2
      simp only [categorizeFieldsListWithPath] at hf2
      rw [if_neg (by simp [h.1.1])] at hf2
      by_cases hc : f.IsEmbedded ∧ (f.JSONTag = "" ∨ f.JSONTag = "-")
      · rw [if_pos hc] at hf2
        rcases List.mem_cons.mp hf2 with h2 | h2
        · subst h2
          have := h.1.2
          rw [if_pos hc] at this
          exact this
        · exact ih h.2 f2 h2
      · rw [if_neg hc] at hf2
        exact ih h.2 f2 hf2

theorem decodeFragmentSpreads_inlineFree (l : List FieldInfo) :
    (∀ f ∈ l, noInlinePlanned f.SubFields = true) →
    inlineFreeList (decodeFragmentSpreads l) = true := by
  refine Querygen.decodeFragmentSpreads.induct
    (fun pf => noInlinePlanned pf.SubFields = true →
      inlineFreeList (decodeNestedFields pf) = true)
    (fun l => (∀ f ∈ l, noInlinePlanned f.SubFields = true) →
      inlineFreeList (decodeFragmentSpreads l) = true)
    (fun f => noInlinePlanned f.SubFields = true →
      inlineFreeList (decodeSingleFragmentSpread f) = true)
    ?_ ?_ ?_ ?_ l
  · intro parentField etgt cats ih hni
    have hinls : (categorizeFieldsListWithPath parentField.SubFields
        ("t." ++ parentField.Name)).2.2 = [] :=
      categorize_inls_nil _ _ hni
    have ih2 : inlineFreeList (decodeFragmentSpreads
        (categorizeFieldsListWithPath parentField.SubFields ("t." ++ parentField.Name)).2.1)
        = true := ih (categorize_spreads_noInline _ _ hni)
    simp only [decodeNestedFields, inlineFreeList_append, hinls]
    rw [ih2]
    rfl
  · intro _
    simp [decodeFragmentSpreads, inlineFreeList]
  · intro f rest ihf ihrest hall
    simp only [decodeFragmentSpreads, inlineFreeList_append]
    rw [ihf (hall f (List.mem_cons_self f rest)),
      ihrest (fun g hg => hall g (List.mem_cons_of_mem f hg))]
    rfl
  · intro f ih hni
    simp only [decodeSingleFragmentSpread]
    by_cases h : 0 < f.SubFields.length
    · simp only [h, if_true]
      simp [inlineFreeList, buildFragmentUnmarshalStatement, inlineFree, ih hni]
    · simp only [h, if_false]
      simp [inlineFreeList, buildFragmentUnmarshalStatement, inlineFree]

/-- C9: the inline-fragment decoder returns the empty statement list for
an empty fragment list, and consequently the decoder plan for a type
with no inline-fragment fields anywhere the planner looks contains none
of the inline machinery: no switch statement, no string (type-name)
local, and no bare `__typename` extraction statement. -/
theorem c9_no_inline_machinery (t r : String) (ti : TypeInfo)
    (h : noInlinePlanned ti.Fields = true) :
    DecodeInlineFragments t r [] = [] ∧
    inlineFreeList (BuildUnmarshalMethod ti) = true := by
  refine ⟨rfl, ?_⟩
  rw [BuildUnmarshalMethod]
  have hinls : (categorizeFieldsList ti.Fields).2.2 = [] := categorize_inls_nil _ _ h
  rw [show categorizeFieldsList ti.Fields =
    categorizeFieldsListWithPath ti.Fields "t" from rfl] at hinls
  simp only [categorizeFieldsList]
  rw [inlineFreeList_append, inlineFreeList_append, inlineFreeList_append,
    inlineFreeList_append, hinls]
  rw [decodeFields_inlineFree,
    decodeFragmentSpreads_inlineFree _ (categorize_spreads_noInline _ _ h)]
  rfl

/-- Concrete type for the C9 witness: one regular field and one
fragment spread with a scalar sub-field. -/
def c9ti : TypeInfo :=
  ⟨"q.op",
   [FieldInfo.mk "Name" "name" true false false false "" [],
    FieldInfo.mk "UserF" "-" true true false false ""
      [FieldInfo.mk "Id" "id" true false false false "" []]]⟩

/-- Witness for C9 at a concrete inline-fragment-free type. -/
theorem c9_no_inline_machinery_witness :
    noInlinePlanned c9ti.Fields = true ∧
    (DecodeInlineFragments "t" "raw" [] = [] ∧
      inlineFreeList (BuildUnmarshalMethod c9ti) = true) := by
  have h : noInlinePlanned c9ti.Fields = true := by
    simp [c9ti, noInlinePlanned, FieldInfo.IsInlineFragment, FieldInfo.IsEmbedded,
      FieldInfo.JSONTag, FieldInfo.SubFields]
  exact ⟨h, c9_no_inline_machinery "t" "raw" c9ti h⟩

end Claims

namespace Claims

open Querygen Runtime Helpers

/-- Modelled from the spec: the machine invariant while decoding the
empty object — the input is `{}`, the raw map is empty, and no deferred
value is bound. -/
def MInv (m : Machine) : Prop :=
  m.data = Json.obj [] ∧ m.raw = [] ∧ m.boundValue = none

/-- Modelled from the spec: every field is either untouched (still at
its zero value) or holds the decode of the empty object (the zero value
of an embedded struct or freshly allocated pointer target). -/
def ZeroPreserving (f0 f1 : List (String × Json)) : Prop :=
  ∀ p, lookupStr p f1 = lookupStr p f0 ∨ lookupStr p f1 = some (Json.obj [])

theorem zeroPreserving_refl (f0 : List (String × Json)) : ZeroPreserving f0 f0 :=
  fun _ => Or.inl rfl

theorem zeroPreserving_trans {a b c : List (String × Json)}
    (h1 : ZeroPreserving a b) (h2 : ZeroPreserving b c) : ZeroPreserving a c := by
  intro p
  rcases h2 p with h | h
  · rw [h]
    exact h1 p
  · exact Or.inr h

theorem zeroPreserving_insert_zero (f0 : List (String × Json)) (p : String) :
    ZeroPreserving f0 (Codegen.insertReplaceAssoc f0 p (Json.obj [])) := by
  intro q
  rw [lookupStr_insertReplaceAssoc]
  by_cases h : q = p
  · simp [h]
  · simp [h]

/-- The value-presence condition the regular-field decoder emits. -/
theorem decodeField_cond (f : FieldInfo) :
    ("value, ok := " ++ "raw" ++ "[\"" ++ f.JSONTag ++ "\"]; ok") =
      "value, ok := raw[\"" ++ f.JSONTag ++ "\"]; ok" := rfl

/-- C8 helper: a regular field whose wire tag is absent from the raw map
decodes to a no-op — the machine is unchanged and no error is
reported. -/
theorem execStmt_decodeField_absent (m : Machine) (f : FieldInfo)
    (h : lookupStr f.JSONTag m.raw = none) :
    execStmt m (DecodeField "t" "raw" f) = StepRes.cont m := by
  have hc : Runtime.stripWrap "value, ok := raw[\"" "\"]; ok"
      ("value, ok := " ++ "raw" ++ "[\"" ++ f.JSONTag ++ "\"]; ok") = some f.JSONTag := by
    rw [show ("value, ok := " ++ "raw" ++ "[\"" ++ f.JSONTag ++ "\"]; ok") =
      "value, ok := raw[\"" ++ f.JSONTag ++ "\"]; ok" from rfl]
    exact stripWrap_append _ _ _
  simp only [DecodeField, execStmt, hc, h]

/-- C8 helper: a regular field whose wire tag is present decodes to a
single update of the field's path with the key's value. -/
theorem execStmt_decodeField_present (m : Machine) (f : FieldInfo) (v : Json)
    (hb : m.boundValue = none)
    (h : lookupStr f.JSONTag m.raw = some v) :
    execStmt m (DecodeField "t" "raw" f) =
      StepRes.cont (m.setField ("t." ++ f.Name) v) := by
  have hc : Runtime.stripWrap "value, ok := raw[\"" "\"]; ok"
      ("value, ok := " ++ "raw" ++ "[\"" ++ f.JSONTag ++ "\"]; ok") = some f.JSONTag := by
    rw [show ("value, ok := " ++ "raw" ++ "[\"" ++ f.JSONTag ++ "\"]; ok") =
      "value, ok := raw[\"" ++ f.JSONTag ++ "\"]; ok" from rfl]
    exact stripWrap_append _ _ _
  have he : Runtime.stripWrap "json.Unmarshal(value, &" ")"
      ("json.Unmarshal(value, " ++ ("&" ++ "t" ++ "." ++ f.Name) ++ ")") =
        some ("t." ++ f.Name) := by
    rw [show ("json.Unmarshal(value, " ++ ("&" ++ "t" ++ "." ++ f.Name) ++ ")") =
      "json.Unmarshal(value, &" ++ ("t." ++ f.Name) ++ ")" from rfl]
    exact stripWrap_append _ _ _
  simp only [DecodeField, execStmt, hc, h, execStmts, he, Machine.setField]
  cases m with
  | mk d r loc fl bv bt =>
      simp at hb
      simp [hb]

mutual

/-- Modelled from the spec: statements that are safe while decoding the
empty object — they cannot fail and can only write empty-object (zero)
values: no returns, bare statements only the `__typename` extraction,
error checks only around the recognized unmarshal forms, ifs only the
recognized presence guards, and switches whose case bodies are
themselves safe. -/
def zeroSafe : Statement → Bool
  | Statement.variableDecl _ _ => true
  | Statement.assignment _ _ => true
  | Statement.returnStmt _ => false
  | Statement.rawStmt code => (stripWrap "json.Unmarshal(typename, &" ")" code).isSome
  | Statement.errorCheck expr _ =>
      (stripWrap "json.Unmarshal(value, &" ")" expr).isSome
        || (stripWrap "json.Unmarshal(data, &" ")" expr).isSome
        || (stripWrap "json.Unmarshal(data, " ")" expr).isSome
  | Statement.ifStmt cond _ =>
      (stripWrap "value, ok := raw[\"" "\"]; ok" cond).isSome
        || decide (cond = "typename, ok := raw[\"__typename\"]; ok")
  | Statement.switchStmt _ cases => zeroSafeCases cases

/-- `zeroSafe` over switch cases. -/
def zeroSafeCases : List (String × List Statement) → Bool
  | [] => true
  | c :: rest => zeroSafeList c.2 && zeroSafeCases rest

/-- `zeroSafe` over a statement list. -/
def zeroSafeList : List Statement → Bool
  | [] => true
  | s :: rest => zeroSafe s && zeroSafeList rest

end

theorem execStmts_append (a b : List Statement) (m : Machine) :
    execStmts m (a ++ b) =
      match execStmts m a with
      | StepRes.cont m2 => execStmts m2 b
      | r => r := by
  induction a generalizing m with
  | nil => simp [execStmts]
  | cons s rest ih =>
      rw [List.cons_append]
      simp only [execStmts]
      cases execStmt m s with
      | cont m2 => exact ih m2
      | finished m2 => rfl
      | failed e => rfl

/-- Shorthand for the master lemma's conclusion. -/
def RunsClean (m : Machine) (r : StepRes) : Prop :=
  ∃ m2, r = StepRes.cont m2 ∧ MInv m2 ∧ ZeroPreserving m.fields m2.fields

theorem master_zeroSafe : ∀ n : Nat,
    (∀ l : List Statement, sizeOf l ≤ n → ∀ m, MInv m → zeroSafeList l = true →
      RunsClean m (execStmts m l)) ∧
    (∀ cs : List (String × List Statement), sizeOf cs ≤ n → ∀ m val, MInv m →
      zeroSafeCases cs = true → RunsClean m (execCases m val cs)) := by
  intro n
  induction n with
  | zero =>
      constructor
      · intro l hl
        cases l <;> simp at hl
      · intro cs hcs
        cases cs <;> simp at hcs
  | succ n ih =>
      have hstmt : ∀ s : Statement, sizeOf s ≤ n → ∀ m, MInv m → zeroSafe s = true →
          RunsClean m (execStmt m s) := by
        intro s hs m hinv hzs
        obtain ⟨hdata, hraw, hbv⟩ := hinv
        cases s with
        | variableDecl nm ty =>
            simp only [execStmt]
            split
            · exact ⟨m.setLocal nm "", rfl, ⟨hdata, hraw, hbv⟩, zeroPreserving_refl _⟩
            · exact ⟨m, rfl, ⟨hdata, hraw, hbv⟩, zeroPreserving_refl _⟩
        | assignment tgt v =>
            simp only [execStmt]
            exact ⟨m.setField tgt (Json.obj []), rfl, ⟨hdata, hraw, hbv⟩,
              zeroPreserving_insert_zero _ _⟩
        | returnStmt v => simp [zeroSafe] at hzs
        | rawStmt code =>
            simp only [zeroSafe, Option.isSome_iff_exists] at hzs
            obtain ⟨lname, hsw⟩ := hzs
            simp only [execStmt, hsw]
            cases hbt : m.boundTypename with
            | none => exact ⟨m, rfl, ⟨hdata, hraw, hbv⟩, zeroPreserving_refl _⟩
            | some jv =>
                cases jv <;>
                  exact ⟨_, rfl, ⟨hdata, hraw, hbv⟩, zeroPreserving_refl _⟩
        | errorCheck expr body =>
            simp only [execStmt]
            cases hv : stripWrap "json.Unmarshal(value, &" ")" expr with
            | some p =>
                simp only [hbv]
                exact ⟨m, rfl, ⟨hdata, hraw, hbv⟩, zeroPreserving_refl _⟩
            | none =>
                cases ha : stripWrap "json.Unmarshal(data, &" ")" expr with
                | some p =>
                    by_cases hp : p = "raw"
                    · subst hp
                      simp only [hdata, eq_self_iff_true, if_true]
                      refine ⟨_, rfl, ⟨?_, ?_, ?_⟩, zeroPreserving_refl _⟩
                      · rfl
                      · rfl
                      · exact hbv
                    · simp only [hdata, if_neg hp]
                      refine ⟨_, rfl, ⟨?_, ?_, ?_⟩, ?_⟩
                      · exact hdata
                      · exact hraw
                      · exact hbv
                      · exact zeroPreserving_insert_zero _ _
                | none =>
                    cases hd : stripWrap "json.Unmarshal(data, " ")" expr with
                    | some p =>
                        simp only [hdata]
                        refine ⟨_, rfl, ⟨?_, ?_, ?_⟩, ?_⟩
                        · exact hdata
                        · exact hraw
                        · exact hbv
                        · exact zeroPreserving_insert_zero _ _
                    | none =>
                        simp [zeroSafe, hv, ha, hd] at hzs
        | ifStmt cond body =>
            simp only [execStmt]
            cases hv : stripWrap "value, ok := raw[\"" "\"]; ok" cond with
            | some k =>
                rw [hraw]
                exact ⟨m, rfl, ⟨hdata, hraw, hbv⟩, zeroPreserving_refl _⟩
            | none =>
                simp only [zeroSafe, hv, Option.isSome_none, Bool.false_or,
                  decide_eq_true_eq] at hzs
                rw [if_pos hzs, hraw]
                exact ⟨m, rfl, ⟨hdata, hraw, hbv⟩, zeroPreserving_refl _⟩
        | switchStmt expr cases0 =>
            simp only [execStmt]
            have hc : sizeOf cases0 ≤ n := by
              have hsp : sizeOf (Statement.switchStmt expr cases0)
                  = 1 + sizeOf expr + sizeOf cases0 := by simp
              omega
            exact ih.2 cases0 hc m _ ⟨hdata, hraw, hbv⟩ (by simpa [zeroSafe] using hzs)
      constructor
      · intro l hl m hinv hzl
        cases l with
        | nil => exact ⟨m, rfl, hinv, zeroPreserving_refl _⟩
        | cons s rest =>
            simp only [zeroSafeList, Bool.and_eq_true] at hzl
            have hsp : sizeOf (s :: rest) = 1 + sizeOf s + sizeOf rest := by simp
            obtain ⟨m2, he, hinv2, hzp⟩ := hstmt s (by omega) m hinv hzl.1
            simp only [execStmts, he]
            obtain ⟨m3, he3, hinv3, hzp3⟩ := ih.1 rest (by omega) m2 hinv2 hzl.2
            exact ⟨m3, he3, hinv3, zeroPreserving_trans hzp hzp3⟩
      · intro cs hcs m val hinv hzc
        cases cs with
        | nil => exact ⟨m, rfl, hinv, zeroPreserving_refl _⟩
        | cons c rest =>
            obtain ⟨v, body⟩ := c
            simp only [zeroSafeCases, Bool.and_eq_true] at hzc
            have hsp : sizeOf ((v, body) :: rest)
                = 1 + (1 + sizeOf v + sizeOf body) + sizeOf rest := by simp
            simp only [execCases]
            split
            · exact ih.1 body (by omega) m hinv hzc.1
            · exact ih.2 rest (by omega) m val hinv hzc.2

end Claims

namespace Claims

open Querygen Runtime Helpers

theorem zeroSafeList_append (a b : List Statement) :
    zeroSafeList (a ++ b) = (zeroSafeList a && zeroSafeList b) := by
  induction a with
  | nil => simp [zeroSafeList]
  | cons s rest ih => simp [zeroSafeList, ih, Bool.and_assoc]

theorem decodeField_zeroSafe (f : FieldInfo) :
    zeroSafe (DecodeField "t" "raw" f) = true := by
  have hc : stripWrap "value, ok := raw[\"" "\"]; ok"
      ("value, ok := " ++ "raw" ++ "[\"" ++ f.JSONTag ++ "\"]; ok") = some f.JSONTag := by
    rw [show ("value, ok := " ++ "raw" ++ "[\"" ++ f.JSONTag ++ "\"]; ok") =
      "value, ok := raw[\"" ++ f.JSONTag ++ "\"]; ok" from rfl]
    exact stripWrap_append _ _ _
  simp [DecodeField, zeroSafe, hc]
  exact Or.inl (by rw [stripWrap_append]; rfl)

theorem decodeFields_zeroSafe (l : List FieldInfo) :
    zeroSafeList (DecodeFields "t" "raw" l) = true := by
  induction l with
  | nil => rfl
  | cons f rest ih =>
      rw [DecodeFields]
      split
      · exact ih
      · split
        · exact ih
        · simp [zeroSafeList, decodeField_zeroSafe f, ih]

theorem createSwitchCases_zeroSafe (inls : List InlineFragmentInfo) :
    zeroSafeCases (createSwitchCases inls) = true := by
  induction inls with
  | nil => rfl
  | cons frag rest ih =>
      have hd : stripWrap "json.Unmarshal(data, " ")"
          ("json.Unmarshal(data, " ++ frag.FieldExpr ++ ")") = some frag.FieldExpr :=
        stripWrap_append _ _ _
      simp [createSwitchCases, zeroSafeCases, zeroSafeList, zeroSafe, hd] at ih ⊢
      exact ih

theorem decodeInlineFragments_zeroSafe (t : String) (inls : List InlineFragmentInfo) :
    zeroSafeList (DecodeInlineFragments t "raw" inls) = true := by
  by_cases h : inls.isEmpty
  · simp [DecodeInlineFragments, h, zeroSafeList]
  · simp only [DecodeInlineFragments, h, Bool.false_eq_true, if_false]
    have hcond : (("typename, ok := " ++ "raw" ++ "[\"__typename\"]; ok") : String) =
        "typename, ok := raw[\"__typename\"]; ok" := rfl
    simp [zeroSafeList, zeroSafe, hcond, createSwitchCases_zeroSafe inls]

theorem buildFragmentUnmarshal_zeroSafe (f : FieldInfo) :
    zeroSafe (buildFragmentUnmarshalStatement f) = true := by
  have hd : stripWrap "json.Unmarshal(data, &" ")"
      ("json.Unmarshal(data, &t." ++ f.Name ++ ")") = some ("t." ++ f.Name) := by
    rw [show ("json.Unmarshal(data, &t." ++ f.Name ++ ")") =
      "json.Unmarshal(data, &" ++ ("t." ++ f.Name) ++ ")" from rfl]
    exact stripWrap_append _ _ _
  simp [buildFragmentUnmarshalStatement, zeroSafe, hd]

theorem decodeFragmentSpreads_zeroSafe (l : List FieldInfo) :
    zeroSafeList (decodeFragmentSpreads l) = true := by
  refine Querygen.decodeFragmentSpreads.induct
    (fun pf => zeroSafeList (decodeNestedFields pf) = true)
    (fun l => zeroSafeList (decodeFragmentSpreads l) = true)
    (fun f => zeroSafeList (decodeSingleFragmentSpread f) = true)
    ?_ ?_ ?_ ?_ l
  · intro parentField etgt cats ih
    have ih2 : zeroSafeList (decodeFragmentSpreads
        (categorizeFieldsListWithPath parentField.SubFields ("t." ++ parentField.Name)).2.1)
        = true := ih
    simp only [decodeNestedFields, zeroSafeList_append]
    rw [ih2, decodeInlineFragments_zeroSafe]
    rfl
  · simp [decodeFragmentSpreads, zeroSafeList]
  · intro f rest ihf ihrest
    simp only [decodeFragmentSpreads, zeroSafeList_append]
    rw [ihf, ihrest]
    rfl
  · intro f ih
    simp only [decodeSingleFragmentSpread]
    by_cases h : 0 < f.SubFields.length
    · simp only [h, if_true]
      simp [zeroSafeList, buildFragmentUnmarshal_zeroSafe f, ih]
    · simp only [h, if_false]
      simp [zeroSafeList, buildFragmentUnmarshal_zeroSafe f]

/-- The generated plan without its final `return nil`. -/
def unmarshalPlanBody (ti : TypeInfo) : List Statement :=
  [Statement.variableDecl "raw" "map[string]jsontext.Value",
   Statement.errorCheck "json.Unmarshal(data, &raw)" [Statement.returnStmt "err"]]
    ++ DecodeFields "t" "raw" (categorizeFieldsList ti.Fields).1
    ++ decodeFragmentSpreads (categorizeFieldsList ti.Fields).2.1
    ++ DecodeInlineFragments "t" "raw" (categorizeFieldsList ti.Fields).2.2

theorem buildUnmarshal_split (ti : TypeInfo) :
    BuildUnmarshalMethod ti = unmarshalPlanBody ti ++ [Statement.returnStmt "nil"] := rfl

theorem planBody_zeroSafe (ti : TypeInfo) :
    zeroSafeList (unmarshalPlanBody ti) = true := by
  have hraw : stripWrap "json.Unmarshal(data, &" ")" "json.Unmarshal(data, &raw)"
      = some "raw" := by
    rw [show ("json.Unmarshal(data, &raw)" : String) =
      "json.Unmarshal(data, &" ++ "raw" ++ ")" from rfl]
    exact stripWrap_append _ _ _
  rw [unmarshalPlanBody, zeroSafeList_append, zeroSafeList_append, zeroSafeList_append]
  rw [decodeFields_zeroSafe, decodeFragmentSpreads_zeroSafe, decodeInlineFragments_zeroSafe]
  simp [zeroSafeList, zeroSafe, hraw]

/-- C8: for every regular field, an absent wire tag leaves the machine
unchanged with no error, a present wire tag sets exactly the field's
path to the key's decoded value; consequently, running any type's full
generated plan on the empty object `{}` succeeds (reaches `return nil`)
with every field either untouched (zero) or holding the decode of the
empty object (the zero value of an embedded target). -/
theorem c8_absent_keeps_zero_present_sets :
    (∀ (m : Machine) (f : FieldInfo), lookupStr f.JSONTag m.raw = none →
        execStmt m (DecodeField "t" "raw" f) = StepRes.cont m) ∧
    (∀ (m : Machine) (f : FieldInfo) (v : Json), m.boundValue = none →
        lookupStr f.JSONTag m.raw = some v →
        execStmt m (DecodeField "t" "raw" f) =
          StepRes.cont (m.setField ("t." ++ f.Name) v)) ∧
    (∀ (ti : TypeInfo) (f0 : List (String × Json)),
        ∃ m2, execStmts (initMachine (Json.obj []) f0) (BuildUnmarshalMethod ti) =
            StepRes.finished m2 ∧ ZeroPreserving f0 m2.fields) := by
  refine ⟨execStmt_decodeField_absent, ?_, ?_⟩
  · intro m f v hb h
    exact execStmt_decodeField_present m f v hb h
  · intro ti f0
    have hz := planBody_zeroSafe ti
    rw [buildUnmarshal_split, execStmts_append]
    obtain ⟨m2, he, hinv2, hzp⟩ :=
      (master_zeroSafe (sizeOf (unmarshalPlanBody ti))).1 (unmarshalPlanBody ti) le_rfl
        (initMachine (Json.obj []) f0) ⟨rfl, rfl, rfl⟩ hz
    rw [he]
    refine ⟨m2, ?_, hzp⟩
    rfl

/-- Concrete machine for the C8 witness: the raw map holds one key
`name`. -/
def c8m : Machine := ⟨Json.obj [], [("name", Json.strVal "x")], [], [], none, none⟩

/-- Concrete present field for the C8 witness. -/
def c8f : FieldInfo := FieldInfo.mk "Name" "name" true false false false "" []

/-- Concrete absent field for the C8 witness. -/
def c8fAbs : FieldInfo := FieldInfo.mk "Age" "age" true false false false "" []

/-- Witness for C8 at concrete machines and fields. -/
theorem c8_absent_keeps_zero_present_sets_witness :
    (lookupStr c8fAbs.JSONTag c8m.raw = none ∧
      execStmt c8m (DecodeField "t" "raw" c8fAbs) = StepRes.cont c8m) ∧
    (c8m.boundValue = none ∧
      lookupStr c8f.JSONTag c8m.raw = some (Json.strVal "x") ∧
      execStmt c8m (DecodeField "t" "raw" c8f) =
        StepRes.cont (c8m.setField ("t." ++ c8f.Name) (Json.strVal "x"))) ∧
    (∃ m2, execStmts (initMachine (Json.obj []) []) (BuildUnmarshalMethod c9ti) =
        StepRes.finished m2 ∧ ZeroPreserving [] m2.fields) :=
  ⟨⟨rfl, c8_absent_keeps_zero_present_sets.1 c8m c8fAbs rfl⟩,
   ⟨rfl, rfl, c8_absent_keeps_zero_present_sets.2.1 c8m c8f (Json.strVal "x") rfl rfl⟩,
   c8_absent_keeps_zero_present_sets.2.2 c9ti []⟩

end Claims

namespace Claims

open Querygen

/-- Follows the spec's words for C5: a regular field decodes behind a
key-presence guard on the raw map, propagating the decode error. -/
def specRegularStep (f : FieldInfo) : Statement :=
  Statement.ifStmt ("value, ok := raw[\"" ++ f.JSONTag ++ "\"]; ok")
    [Statement.errorCheck ("json.Unmarshal(value, &t." ++ f.Name ++ ")")
      [Statement.returnStmt "err"]]

/-- Follows the spec's words for C5: one guarded decode per regular
field that has a usable wire tag and is exported, in field order. -/
def specRegularSteps (l : List FieldInfo) : List Statement :=
  (l.filter (fun f =>
    !(decide (f.JSONTag = "") || decide (f.JSONTag = "-")) && f.IsExported)).map specRegularStep

/-- Follows the spec's words for C5: the inline-fragment switch at a
target path — declare the type-name local named after the path, read
`__typename` from the outer raw map when present, then switch, each
case allocating the pointer field and decoding the original input
bytes into it. -/
def specInlinePlan (path : String) (inls : List InlineFragmentInfo) : List Statement :=
  if inls.isEmpty then [] else
  [Statement.variableDecl ("typeName_" ++ replaceDots path) "string",
   Statement.ifStmt "typename, ok := raw[\"__typename\"]; ok"
     [Statement.rawStmt ("json.Unmarshal(typename, &typeName_" ++ replaceDots path ++ ")")],
   Statement.switchStmt ("typeName_" ++ replaceDots path)
     (inls.map (fun frag =>
       (frag.Field.Name,
        [Statement.assignment frag.FieldExpr ("&" ++ frag.ElemTypeStr ++ "\x7b\x7d"),
         Statement.errorCheck ("json.Unmarshal(data, " ++ frag.FieldExpr ++ ")")
           [Statement.returnStmt "err"]])))]

/-- Follows the spec's words for C5: each fragment-spread field decodes
the original input bytes (`data`, not the raw map) into the field, and
when it has sub-fields, its nested fragment spreads and then its
inline-fragment switch are planned under the field's path `t.Name`,
the switch reading `__typename` from the outer raw map. (Nested
spreads unmarshal into `&t.SubName`; Go field promotion makes that the
same location as `t.Name.SubName`.) -/
def specFragmentPlan : List FieldInfo → List Statement
  | [] => []
  | f :: rest =>
      (Statement.errorCheck ("json.Unmarshal(data, &t." ++ f.Name ++ ")")
          [Statement.returnStmt "err"]
        :: (if 0 < f.SubFields.length then
              specFragmentPlan
                  (categorizeFieldsListWithPath f.SubFields ("t." ++ f.Name)).2.1
                ++ specInlinePlan ("t." ++ f.Name)
                    (categorizeFieldsListWithPath f.SubFields ("t." ++ f.Name)).2.2
            else []))
        ++ specFragmentPlan rest
termination_by l => sizeOf l
decreasing_by
  all_goals simp only [List.cons.sizeOf_spec]
  · have h1 := Querygen.sizeOf_categorize_spreads field.SubFields ("t." ++ field.Name)
    have h2 := Querygen.sizeOf_SubFields_lt field
    omega
  · omega

/-- Follows the spec's words for C5: the whole plan — declare the raw
map and decode the input into it; the guarded regular-field decodes;
the fragment-spread decodes with their nested plans; the top-level
inline-fragment switch; return success. -/
def specUnmarshalPlan (ti : TypeInfo) : List Statement :=
  Statement.variableDecl "raw" "map[string]jsontext.Value"
    :: Statement.errorCheck "json.Unmarshal(data, &raw)" [Statement.returnStmt "err"]
    :: (specRegularSteps (categorizeFieldsList ti.Fields).1
        ++ (specFragmentPlan (categorizeFieldsList ti.Fields).2.1
            ++ (specInlinePlan "t" (categorizeFieldsList ti.Fields).2.2
                ++ [Statement.returnStmt "nil"])))

theorem decodeFields_eq_spec (l : List FieldInfo) :
    DecodeFields "t" "raw" l = specRegularSteps l := by
  induction l with
  | nil => rfl
  | cons f rest ih =>
      rw [DecodeFields]
      by_cases h1 : f.JSONTag = "" ∨ f.JSONTag = "-"
      · rw [if_pos h1, ih]
        simp only [specRegularSteps, List.filter]
        have : (!(decide (f.JSONTag = "") || decide (f.JSONTag = "-")) && f.IsExported) = false := by
          rcases h1 with h | h <;> simp [h]
        rw [this]
      · rw [if_neg h1]
        by_cases h2 : f.IsExported = true
        · have hkeep : (!(decide (f.JSONTag = "") || decide (f.JSONTag = "-")) && f.IsExported)
              = true := by
            push_neg at h1
            simp [h1.1, h1.2, h2]
          rw [if_neg (by simp [h2])]
          simp only [specRegularSteps, List.filter, hkeep]
          rw [show DecodeField "t" "raw" f = specRegularStep f from rfl]
          rw [ih]
          rfl
        · have hdrop : (!(decide (f.JSONTag = "") || decide (f.JSONTag = "-")) && f.IsExported)
              = false := by
            simp [h2]
          rw [if_pos (by simp [h2]), ih]
          simp only [specRegularSteps, List.filter, hdrop]

theorem decodeInlineFragments_eq_spec (path : String) (inls : List InlineFragmentInfo) :
    DecodeInlineFragments path "raw" inls = specInlinePlan path inls := by
  cases inls <;> rfl

theorem decodeFragmentSpreads_eq_spec (l : List FieldInfo) :
    decodeFragmentSpreads l = specFragmentPlan l := by
  refine Querygen.decodeFragmentSpreads.induct
    (fun pf => decodeNestedFields pf =
      specFragmentPlan
          (categorizeFieldsListWithPath pf.SubFields ("t." ++ pf.Name)).2.1
        ++ specInlinePlan ("t." ++ pf.Name)
            (categorizeFieldsListWithPath pf.SubFields ("t." ++ pf.Name)).2.2)
    (fun l => decodeFragmentSpreads l = specFragmentPlan l)
    (fun f => decodeSingleFragmentSpread f =
      Statement.errorCheck ("json.Unmarshal(data, &t." ++ f.Name ++ ")")
          [Statement.returnStmt "err"]
        :: (if 0 < f.SubFields.length then
              specFragmentPlan
                  (categorizeFieldsListWithPath f.SubFields ("t." ++ f.Name)).2.1
                ++ specInlinePlan ("t." ++ f.Name)
                    (categorizeFieldsListWithPath f.SubFields ("t." ++ f.Name)).2.2
            else []))
    ?_ ?_ ?_ ?_ l
  · intro parentField etgt cats ih
    have ih2 : decodeFragmentSpreads
        (categorizeFieldsListWithPath parentField.SubFields ("t." ++ parentField.Name)).2.1 =
      specFragmentPlan
        (categorizeFieldsListWithPath parentField.SubFields ("t." ++ parentField.Name)).2.1 := ih
    simp only [decodeNestedFields]
    rw [ih2, decodeInlineFragments_eq_spec]
  · simp [decodeFragmentSpreads, specFragmentPlan]
  · intro f rest ihf ihrest
    simp only [decodeFragmentSpreads, specFragmentPlan]
    rw [ihf, ihrest]
  · intro f ih
    simp only [decodeSingleFragmentSpread]
    rw [show buildFragmentUnmarshalStatement f =
      Statement.errorCheck ("json.Unmarshal(data, &t." ++ f.Name ++ ")")
        [Statement.returnStmt "err"] from rfl]
    by_cases h : 0 < f.SubFields.length
    · rw [if_pos h, if_pos h, ih]
    · rw [if_neg h, if_neg h]

/-- C5: the generated decoder plan for one type is exactly the
spec-described plan: declare the raw map and decode the input bytes
into it; then the key-presence-guarded decode of each regular field;
then, for each fragment-spread field, a decode of the original input
bytes (not `raw`) into the field followed by its recursively planned
nested fragment spreads and its inline-fragment switch rooted at the
field's path with `__typename` read from the outer raw map; then the
top-level inline-fragment switch; then return success. -/
theorem c5_plan_order (ti : TypeInfo) :
    BuildUnmarshalMethod ti = specUnmarshalPlan ti := by
  rw [BuildUnmarshalMethod, specUnmarshalPlan]
  rw [decodeFields_eq_spec, decodeFragmentSpreads_eq_spec, decodeInlineFragments_eq_spec]
  simp [List.append_assoc]

end Claims
